import Mathlib

/-!
Shallow embedding of the arithmetic-expression pipeline of
`src/task_1/sorted-data/py/task_2.py`: `Lexer`, `Parser` (recursive descent)
and `Interpreter` (tree walk), together with proofs of the specified
properties.  Python's exceptions are modelled with `Except`; numeric results
use `ℚ` (the code's `/` is Python true division, addition/subtraction/
multiplication on integers embed in `ℚ`); `str.isspace` / `str.isdigit` are
modelled by `Char.isWhitespace` / `Char.isDigit` (ASCII view of the inputs).
-/

/-- The error taxonomy: `LexicalError` (carrying the offending character),
`ParsingError`, `ZeroDivisionError`, and the plain `Exception` raised by
`Interpreter.generic_visit` (modelled as `internal`). -/
inductive Err where
  | lexical (c : Char)
  | parsing
  | divisionByZero
  | internal
deriving DecidableEq

/-- Token kinds, mirroring the `TokenType` constants. -/
inductive TokType where
  | int | plus | minus | mul | div | lparen | rparen | eof
deriving DecidableEq

/-- A token.  The Python `Token` stores a `type` and a `value`; the value is
semantically used only for `INTEGER` tokens (elsewhere it is the literal
symbol, and `None` for EOF), so only the integer payload is modelled. -/
inductive Tok where
  | int (value : ℕ)
  | plus | minus | mul | div | lparen | rparen | eof
deriving DecidableEq

/-- The `type` field of a token. -/
def Tok.type : Tok → TokType
  | .int _ => .int
  | .plus => .plus
  | .minus => .minus
  | .mul => .mul
  | .div => .div
  | .lparen => .lparen
  | .rparen => .rparen
  | .eof => .eof

/-- Lexer state: the source text, the cursor position, and the cached
current character (`self.current_char`), kept in sync by the code. -/
structure Lexer where
  text : List Char
  pos : ℕ
  current_char : Option Char
deriving DecidableEq

/-- `Lexer.__init__`: position 0, current character `text[0]` if the text is
non-empty, else `None`. -/
def Lexer.init (text : List Char) : Lexer :=
  { text := text, pos := 0,
    current_char := if text ≠ [] then text[0]? else none }

/-- `Lexer.advance`: increment `pos`; reload `current_char` from the text or
set it to `None` past the end. -/
def Lexer.advance (l : Lexer) : Lexer :=
  { l with pos := l.pos + 1,
           current_char := if l.pos + 1 < l.text.length then l.text[l.pos + 1]? else none }

/-- Termination measure for the lexer loops: one unit for a cached character
plus two units per character between `pos` and the end of the text.
`advance` strictly decreases it whenever `current_char` is present. -/
def muL (l : Lexer) : ℕ :=
  (if l.current_char.isSome then 1 else 0) + 2 * (l.text.length - l.pos)

theorem muL_advance_lt (l : Lexer) (c : Char) (h : l.current_char = some c) :
    muL l.advance < muL l := by
  unfold muL Lexer.advance
  rcases Nat.lt_or_ge (l.pos + 1) l.text.length with hq | hq
  · rw [if_pos hq, List.getElem?_eq_getElem hq]
    simp [h]
    omega
  · rw [if_neg (by omega : ¬ l.pos + 1 < l.text.length)]
    simp [h]
    omega

/-- `Lexer.skip_whitespace`: advance while the current character is
whitespace. -/
def Lexer.skip_whitespace (l : Lexer) : Lexer :=
  match h : l.current_char with
  | some c =>
      if c.isWhitespace then Lexer.skip_whitespace l.advance else l
  | none => l
termination_by muL l
decreasing_by exact muL_advance_lt l c h

theorem muL_skip_whitespace_le (l : Lexer) : muL l.skip_whitespace ≤ muL l := by
  rw [Lexer.skip_whitespace]
  split
  · split
    · rename_i c h _
      have h1 := muL_advance_lt l c h
      have h2 := muL_skip_whitespace_le l.advance
      omega
    · exact le_refl _
  · exact le_refl _
termination_by muL l
decreasing_by exact muL_advance_lt _ _ (by assumption)

theorem muL_skip_whitespace_lt (l : Lexer) (c : Char)
    (h : l.current_char = some c) (hw : c.isWhitespace) :
    muL l.skip_whitespace < muL l := by
  rw [Lexer.skip_whitespace]
  split
  · rename_i c2 h2
    rw [h] at h2
    injection h2 with h2
    subst h2
    rw [if_pos hw]
    have h1 := muL_advance_lt l c h
    have h3 := muL_skip_whitespace_le l.advance
    omega
  · rename_i h2
    rw [h] at h2
    exact absurd h2 (by simp)

/-- Python `int` on a string of decimal digits (the only way
`Lexer.integer` uses it). -/
def digitsVal (cs : List Char) : ℕ :=
  cs.foldl (fun acc c => 10 * acc + (c.toNat - 48)) 0

/-- The digit-collecting loop inside `Lexer.integer` (`result += ...`). -/
def Lexer.integer_aux (l : Lexer) (acc : List Char) : List Char × Lexer :=
  match h : l.current_char with
  | some c =>
      if c.isDigit then Lexer.integer_aux l.advance (acc ++ [c]) else (acc, l)
  | none => (acc, l)
termination_by muL l
decreasing_by exact muL_advance_lt l c h

/-- `Lexer.integer`: consume a maximal digit run and convert it with
`int`. -/
def Lexer.integer (l : Lexer) : ℕ × Lexer :=
  let r := l.integer_aux []
  (digitsVal r.1, r.2)

theorem muL_integer_aux_le (l : Lexer) (acc : List Char) :
    muL (l.integer_aux acc).2 ≤ muL l := by
  rw [Lexer.integer_aux]
  split
  · split
    · rename_i c h _
      have h1 := muL_advance_lt l c h
      have h2 := muL_integer_aux_le l.advance (acc ++ [c])
      omega
    · exact le_refl _
  · exact le_refl _
termination_by muL l
decreasing_by exact muL_advance_lt _ _ (by assumption)

theorem muL_integer_lt (l : Lexer) (c : Char)
    (h : l.current_char = some c) (hd : c.isDigit) :
    muL l.integer.2 < muL l := by
  unfold Lexer.integer
  simp only
  rw [Lexer.integer_aux]
  split
  · rename_i c2 h2
    rw [h] at h2
    injection h2 with h2
    subst h2
    rw [if_pos hd]
    have h1 := muL_advance_lt l c h
    have h3 := muL_integer_aux_le l.advance ([] ++ [c])
    omega
  · rename_i h2
    rw [h] at h2
    exact absurd h2 (by simp)

/-- `Lexer.get_next_token`: the main lexer loop.  Whitespace is skipped and
the loop re-enters; a digit starts `integer`; the six single-character
tokens advance by one; any other character raises `LexicalError`; at end of
text the EOF token is returned. -/
def Lexer.get_next_token (l : Lexer) : Except Err (Tok × Lexer) :=
  match h : l.current_char with
  | some c =>
      if hw : c.isWhitespace then
        Lexer.get_next_token l.skip_whitespace
      else if c.isDigit then
        let r := l.integer
        .ok (.int r.1, r.2)
      else if c = '+' then .ok (.plus, l.advance)
      else if c = '-' then .ok (.minus, l.advance)
      else if c = '*' then .ok (.mul, l.advance)
      else if c = '/' then .ok (.div, l.advance)
      else if c = '(' then .ok (.lparen, l.advance)
      else if c = ')' then .ok (.rparen, l.advance)
      else .error (.lexical c)
  | none => .ok (.eof, l)
termination_by muL l
decreasing_by exact muL_skip_whitespace_lt l c h hw

theorem muL_get_next_token_le (l : Lexer) (r : Tok × Lexer)
    (h : l.get_next_token = .ok r) : muL r.2 ≤ muL l := by
  rw [Lexer.get_next_token] at h
  split at h
  · rename_i c hc
    split at h
    · rename_i hw
      have h1 := muL_skip_whitespace_lt l c hc hw
      have h2 := muL_get_next_token_le l.skip_whitespace r h
      omega
    · split at h
      · rename_i hd
        simp only [Except.ok.injEq] at h
        have h1 := muL_integer_lt l c hc hd
        rw [← h]
        exact le_of_lt h1
      · have hadv : muL l.advance < muL l := muL_advance_lt l c hc
        split at h <;>
          [skip; split at h <;>
            [skip; split at h <;>
              [skip; split at h <;>
                [skip; split at h <;>
                  [skip; split at h <;> [skip; exact absurd h (by simp)]]]]]] <;>
        · simp only [Except.ok.injEq] at h
          rw [← h]
          exact le_of_lt hadv
  · rename_i hc
    simp only [Except.ok.injEq] at h
    rw [← h]
termination_by muL l
decreasing_by exact muL_skip_whitespace_lt _ _ (by assumption) (by assumption)

theorem muL_get_next_token_lt (l : Lexer) (r : Tok × Lexer)
    (h : l.get_next_token = .ok r) (hne : r.1.type ≠ .eof) : muL r.2 < muL l := by
  rw [Lexer.get_next_token] at h
  split at h
  · rename_i c hc
    split at h
    · rename_i hw
      have h1 := muL_skip_whitespace_lt l c hc hw
      have h2 := muL_get_next_token_lt l.skip_whitespace r h hne
      omega
    · split at h
      · rename_i hd
        simp only [Except.ok.injEq] at h
        have h1 := muL_integer_lt l c hc hd
        rw [← h]
        exact h1
      · have hadv : muL l.advance < muL l := muL_advance_lt l c hc
        split at h <;>
          [skip; split at h <;>
            [skip; split at h <;>
              [skip; split at h <;>
                [skip; split at h <;>
                  [skip; split at h <;> [skip; exact absurd h (by simp)]]]]]] <;>
        · simp only [Except.ok.injEq] at h
          rw [← h]
          exact hadv
  · simp only [Except.ok.injEq] at h
    rw [← h] at hne
    exact absurd rfl hne
termination_by muL l
decreasing_by exact muL_skip_whitespace_lt _ _ (by assumption) (by assumption)

/-- Parser state: the owned `Lexer` and the single-token lookahead buffer
`self.current_token`. -/
structure Parser where
  lexer : Lexer
  current_token : Tok
deriving DecidableEq

/-- Termination measure for the recursive-descent parser: lexer measure plus
one unit while the lookahead token is not EOF. -/
def muP (p : Parser) : ℕ :=
  2 * muL p.lexer + (if p.current_token.type = .eof then 0 else 1)

/-- `Parser.eat`: if the current token has the expected type, pull the next
token from the lexer into the buffer; otherwise raise `ParsingError`
(`self.error()`). -/
def Parser.eat (p : Parser) (tt : TokType) : Except Err Parser :=
  if p.current_token.type = tt then
    match p.lexer.get_next_token with
    | .ok r => .ok ⟨r.2, r.1⟩
    | .error e => .error e
  else .error .parsing

theorem muP_eat_lt (p : Parser) (tt : TokType) (q : Parser)
    (h : p.eat tt = .ok q) (hne : tt ≠ .eof) : muP q < muP p := by
  unfold Parser.eat at h
  split at h
  · rename_i htt
    split at h
    · rename_i r hr
      simp only [Except.ok.injEq] at h
      rw [← h]
      unfold muP
      simp only
      rw [htt, if_neg hne]
      by_cases he : r.1.type = .eof
      · rw [if_pos he]
        have h1 := muL_get_next_token_le p.lexer r hr
        omega
      · rw [if_neg he]
        have h1 := muL_get_next_token_lt p.lexer r hr he
        omega
    · exact absurd h (by simp)
  · exact absurd h (by simp)

/-- Operator tag of a `BinOp` node.  The Python `BinOp` stores the whole
operator `Token`; the only field the interpreter uses is its type, which the
parser guarantees is one of the four arithmetic operators. -/
inductive Op where
  | plus | minus | mul | div
deriving DecidableEq

/-- AST nodes: `Num` (with the integer copied from the token) and `BinOp`.
The children are `Option AST` because `Parser.factor` falls through and
returns Python's `None` when the current token is neither INTEGER nor
LPAREN, and that `None` is stored in `BinOp` fields unchecked. -/
inductive AST where
  | num (value : ℕ)
  | binOp (left : Option AST) (op : Op) (right : Option AST)

/-- Result type of the recursive-descent procedures: the parser outcome
bundled with the bound that a successful parse does not increase the
termination measure. -/
def PRes (p : Parser) :=
  { r : Except Err (Option AST × Parser) //
    ∀ x q, r = .ok (x, q) → muP q ≤ muP p }

theorem ok_bound (x : Option AST) (q : Parser) (m : ℕ) (hm : muP q ≤ m) :
    ∀ x' q', (Except.ok (x, q) : Except Err (Option AST × Parser)) = .ok (x', q') →
      muP q' ≤ m := by
  intro x' q' h
  rw [Except.ok.injEq, Prod.mk.injEq] at h
  exact h.2 ▸ hm

theorem err_bound (e : Err) (m : ℕ) :
    ∀ x q, (Except.error e : Except Err (Option AST × Parser)) = .ok (x, q) →
      muP q ≤ m :=
  fun _ _ h => nomatch h

theorem lex_le_lt {a1 a2 b1 b2 : ℕ} (ha : a1 ≤ a2) (hb : b1 < b2) :
    Prod.Lex (· < ·) (· < ·) (a1, b1) (a2, b2) := by
  rcases lt_or_eq_of_le ha with h | h
  · exact Prod.Lex.left _ _ h
  · subst h
    exact Prod.Lex.right _ hb

mutual

/-- `Parser.factor`: INTEGER produces a `Num` node; LPAREN wraps a
recursive `expr` and requires RPAREN; any other token falls off the end of
the `if`/`elif` chain, returning Python's `None` with the parser state
unchanged. -/
def Parser.factor (p : Parser) : PRes p :=
  match p.current_token with
  | .int n =>
    match heat : p.eat .int with
    | .ok p1 => ⟨.ok (some (.num n), p1),
        ok_bound _ _ _ (le_of_lt (muP_eat_lt p .int p1 heat (by decide)))⟩
    | .error e => ⟨.error e, err_bound e _⟩
  | .lparen =>
    match heat : p.eat .lparen with
    | .ok p1 =>
      match Parser.expr p1 with
      | ⟨.ok (node, p2), hb⟩ =>
        match heat2 : p2.eat .rparen with
        | .ok p3 => ⟨.ok (node, p3), ok_bound _ _ _ (by
            have h1 := muP_eat_lt p .lparen p1 heat (by decide)
            have h2 := hb node p2 rfl
            have h3 := muP_eat_lt p2 .rparen p3 heat2 (by decide)
            omega)⟩
        | .error e => ⟨.error e, err_bound e _⟩
      | ⟨.error e, _⟩ => ⟨.error e, err_bound e _⟩
    | .error e => ⟨.error e, err_bound e _⟩
  | _ => ⟨.ok (none, p), ok_bound _ _ _ (le_refl _)⟩
termination_by (muP p, 0)
decreasing_by
  all_goals simp_wf
  all_goals
    first
    | exact Prod.Lex.right _ (by omega)
    | exact lex_le_lt (hb _ _ rfl) (by omega)
    | exact Prod.Lex.left _ _ (muP_eat_lt _ _ _ heat (by decide))
    | exact Prod.Lex.left _ _
        (lt_of_le_of_lt (hb _ _ rfl) (muP_eat_lt _ _ _ heat (by decide)))

/-- The `while` loop of `Parser.term`, folding `*` and `/` left-to-right. -/
def Parser.term_loop (p : Parser) (node : Option AST) : PRes p :=
  match p.current_token.type with
  | .mul =>
    match heat : p.eat .mul with
    | .ok p1 =>
      match Parser.factor p1 with
      | ⟨.ok (right, p2), hb⟩ =>
        match Parser.term_loop p2 (some (.binOp node .mul right)) with
        | ⟨r, hb2⟩ => ⟨r, fun x q h => by
            have h1 := muP_eat_lt p .mul p1 heat (by decide)
            have h2 := hb right p2 rfl
            have h3 := hb2 x q h
            omega⟩
      | ⟨.error e, _⟩ => ⟨.error e, err_bound e _⟩
    | .error e => ⟨.error e, err_bound e _⟩
  | .div =>
    match heat : p.eat .div with
    | .ok p1 =>
      match Parser.factor p1 with
      | ⟨.ok (right, p2), hb⟩ =>
        match Parser.term_loop p2 (some (.binOp node .div right)) with
        | ⟨r, hb2⟩ => ⟨r, fun x q h => by
            have h1 := muP_eat_lt p .div p1 heat (by decide)
            have h2 := hb right p2 rfl
            have h3 := hb2 x q h
            omega⟩
      | ⟨.error e, _⟩ => ⟨.error e, err_bound e _⟩
    | .error e => ⟨.error e, err_bound e _⟩
  | _ => ⟨.ok (node, p), ok_bound _ _ _ (le_refl _)⟩
termination_by (muP p, 1)
decreasing_by
  all_goals simp_wf
  all_goals
    first
    | exact Prod.Lex.right _ (by omega)
    | exact lex_le_lt (hb _ _ rfl) (by omega)
    | exact Prod.Lex.left _ _ (muP_eat_lt _ _ _ heat (by decide))
    | exact Prod.Lex.left _ _
        (lt_of_le_of_lt (hb _ _ rfl) (muP_eat_lt _ _ _ heat (by decide)))

/-- `Parser.term`: a `factor` followed by the multiplicative loop. -/
def Parser.term (p : Parser) : PRes p :=
  match Parser.factor p with
  | ⟨.ok (node, p1), hb⟩ =>
    match Parser.term_loop p1 node with
    | ⟨r, hb2⟩ => ⟨r, fun x q h => le_trans (hb2 x q h) (hb node p1 rfl)⟩
  | ⟨.error e, _⟩ => ⟨.error e, err_bound e _⟩
termination_by (muP p, 2)
decreasing_by
  all_goals simp_wf
  all_goals
    first
    | exact Prod.Lex.right _ (by omega)
    | exact lex_le_lt (hb _ _ rfl) (by omega)
    | exact Prod.Lex.left _ _ (muP_eat_lt _ _ _ heat (by decide))
    | exact Prod.Lex.left _ _
        (lt_of_le_of_lt (hb _ _ rfl) (muP_eat_lt _ _ _ heat (by decide)))

/-- The `while` loop of `Parser.expr`, folding `+` and `-` left-to-right. -/
def Parser.expr_loop (p : Parser) (node : Option AST) : PRes p :=
  match p.current_token.type with
  | .plus =>
    match heat : p.eat .plus with
    | .ok p1 =>
      match Parser.term p1 with
      | ⟨.ok (right, p2), hb⟩ =>
        match Parser.expr_loop p2 (some (.binOp node .plus right)) with
        | ⟨r, hb2⟩ => ⟨r, fun x q h => by
            have h1 := muP_eat_lt p .plus p1 heat (by decide)
            have h2 := hb right p2 rfl
            have h3 := hb2 x q h
            omega⟩
      | ⟨.error e, _⟩ => ⟨.error e, err_bound e _⟩
    | .error e => ⟨.error e, err_bound e _⟩
  | .minus =>
    match heat : p.eat .minus with
    | .ok p1 =>
      match Parser.term p1 with
      | ⟨.ok (right, p2), hb⟩ =>
        match Parser.expr_loop p2 (some (.binOp node .minus right)) with
        | ⟨r, hb2⟩ => ⟨r, fun x q h => by
            have h1 := muP_eat_lt p .minus p1 heat (by decide)
            have h2 := hb right p2 rfl
            have h3 := hb2 x q h
            omega⟩
      | ⟨.error e, _⟩ => ⟨.error e, err_bound e _⟩
    | .error e => ⟨.error e, err_bound e _⟩
  | _ => ⟨.ok (node, p), ok_bound _ _ _ (le_refl _)⟩
termination_by (muP p, 3)
decreasing_by
  all_goals simp_wf
  all_goals
    first
    | exact Prod.Lex.right _ (by omega)
    | exact lex_le_lt (hb _ _ rfl) (by omega)
    | exact Prod.Lex.left _ _ (muP_eat_lt _ _ _ heat (by decide))
    | exact Prod.Lex.left _ _
        (lt_of_le_of_lt (hb _ _ rfl) (muP_eat_lt _ _ _ heat (by decide)))

/-- `Parser.expr`: a `term` followed by the additive loop. -/
def Parser.expr (p : Parser) : PRes p :=
  match Parser.term p with
  | ⟨.ok (node, p1), hb⟩ =>
    match Parser.expr_loop p1 node with
    | ⟨r, hb2⟩ => ⟨r, fun x q h => le_trans (hb2 x q h) (hb node p1 rfl)⟩
  | ⟨.error e, _⟩ => ⟨.error e, err_bound e _⟩
termination_by (muP p, 4)
decreasing_by
  all_goals simp_wf
  all_goals
    first
    | exact Prod.Lex.right _ (by omega)
    | exact lex_le_lt (hb _ _ rfl) (by omega)
    | exact Prod.Lex.left _ _ (muP_eat_lt _ _ _ heat (by decide))
    | exact Prod.Lex.left _ _
        (lt_of_le_of_lt (hb _ _ rfl) (muP_eat_lt _ _ _ heat (by decide)))

end

/-- `Parser.parse`: run `expr`, then require the lookahead to be EOF,
else raise `ParsingError`; return the root node (possibly Python's
`None`). -/
def Parser.parse (p : Parser) : Except Err (Option AST) :=
  match (Parser.expr p).val with
  | .ok r => if r.2.current_token.type = .eof then .ok r.1 else .error .parsing
  | .error e => .error e

/-- `Parser.__init__`: pull the first token from the lexer into the
lookahead buffer (this can already raise `LexicalError`). -/
def Parser.init (l : Lexer) : Except Err Parser :=
  match l.get_next_token with
  | .ok r => .ok ⟨r.2, r.1⟩
  | .error e => .error e

/-- `Interpreter.generic_visit`: the fallback raised when no `visit_...`
method matches the node's runtime type (in particular for `None`). -/
def Interpreter.generic_visit : Except Err ℚ := .error .internal

/-- `Interpreter.visit_Num`: the stored integer value. -/
def Interpreter.visit_Num (v : ℕ) : Except Err ℚ := .ok v

mutual

/-- `Interpreter.visit`: dispatch on the node's runtime type.  `Num` and
`BinOp` have handlers; `None` (or anything else) falls to
`generic_visit`. -/
def Interpreter.visit : Option AST → Except Err ℚ
  | some (.num v) => Interpreter.visit_Num v
  | some (.binOp l op r) => Interpreter.visit_BinOp l op r
  | none => Interpreter.generic_visit
termination_by node => sizeOf node
decreasing_by all_goals (simp_wf; omega)

/-- `Interpreter.visit_BinOp`: `+`, `-`, `*` evaluate left then right and
combine; `/` evaluates the right operand first, raises `ZeroDivisionError`
if it is zero, and only then evaluates the left operand and divides. -/
def Interpreter.visit_BinOp (l : Option AST) (op : Op) (r : Option AST) :
    Except Err ℚ :=
  match op with
  | .plus => do
      let a ← Interpreter.visit l
      let b ← Interpreter.visit r
      pure (a + b)
  | .minus => do
      let a ← Interpreter.visit l
      let b ← Interpreter.visit r
      pure (a - b)
  | .mul => do
      let a ← Interpreter.visit l
      let b ← Interpreter.visit r
      pure (a * b)
  | .div => do
      let right_val ← Interpreter.visit r
      if right_val = 0 then
        .error .divisionByZero
      else do
        let left_val ← Interpreter.visit l
        pure (left_val / right_val)
termination_by sizeOf l + sizeOf r + 1
decreasing_by all_goals (simp_wf; omega)

end

/-- `Interpreter.interpret`: parse, then evaluate the tree. -/
def Interpreter.interpret (p : Parser) : Except Err ℚ := do
  let tree ← p.parse
  Interpreter.visit tree

/-- The public pipeline (spec §6): `Lexer(text)` → `Parser(lexer)` →
`Interpreter(parser)` → `interpret()`. -/
def evaluate (s : String) : Except Err ℚ :=
  match Parser.init (Lexer.init s.data) with
  | .ok p => Interpreter.interpret p
  | .error e => .error e

/-! ### Lexer stepping lemmas

`lexAt cs p` is the canonical in-sync lexer state at position `p`; every
state the pipeline actually reaches has this shape. -/

/-- The in-sync lexer state at position `p` of text `cs`. -/
def lexAt (cs : List Char) (p : ℕ) : Lexer := ⟨cs, p, cs[p]?⟩

theorem init_eq_lexAt (cs : List Char) : Lexer.init cs = lexAt cs 0 := by
  unfold Lexer.init lexAt
  rcases cs with _ | ⟨c, cs⟩ <;> simp

theorem advance_lexAt (cs : List Char) (p : ℕ) :
    (lexAt cs p).advance = lexAt cs (p + 1) := by
  unfold Lexer.advance lexAt
  rcases Nat.lt_or_ge (p + 1) cs.length with hq | hq
  · simp [hq]
  · simp [List.getElem?_eq_none hq, hq, Nat.not_lt_of_ge hq]

theorem skip_whitespace_step (cs : List Char) (p : ℕ) (c : Char)
    (h : cs[p]? = some c) (hw : c.isWhitespace) :
    (lexAt cs p).skip_whitespace = (lexAt cs (p + 1)).skip_whitespace := by
  rw [Lexer.skip_whitespace]
  have hc : (lexAt cs p).current_char = some c := h
  split
  · rename_i c2 h2
    rw [hc] at h2
    injection h2 with h2
    subst h2
    rw [if_pos hw, advance_lexAt]
  · rename_i h2
    rw [hc] at h2
    exact absurd h2 (by simp)

theorem skip_whitespace_stop (cs : List Char) (p : ℕ)
    (h : ∀ c, cs[p]? = some c → ¬ c.isWhitespace) :
    (lexAt cs p).skip_whitespace = lexAt cs p := by
  rw [Lexer.skip_whitespace]
  split
  · rename_i c2 h2
    rw [if_neg (h c2 h2)]
  · rfl

/-- The maximal digit run of `cs` starting at position `p`. -/
def digitRun (cs : List Char) (p : ℕ) : List Char :=
  if h : p < cs.length then
    if (cs.get ⟨p, h⟩).isDigit then cs.get ⟨p, h⟩ :: digitRun cs (p + 1) else []
  else []
termination_by cs.length - p

theorem digitRun_some (cs : List Char) (p : ℕ) (c : Char) (h : cs[p]? = some c) :
    digitRun cs p = if c.isDigit then c :: digitRun cs (p + 1) else [] := by
  obtain ⟨hp, hg⟩ := List.getElem?_eq_some.mp h
  rw [digitRun, dif_pos hp]
  simp only [List.get_eq_getElem, hg]

theorem digitRun_none (cs : List Char) (p : ℕ) (h : cs[p]? = none) :
    digitRun cs p = [] := by
  rw [digitRun, dif_neg]
  rw [List.getElem?_eq_none_iff] at h
  omega

theorem integer_aux_lexAt (cs : List Char) (p : ℕ) (acc : List Char) :
    (lexAt cs p).integer_aux acc =
      (acc ++ digitRun cs p, lexAt cs (p + (digitRun cs p).length)) := by
  rw [Lexer.integer_aux]
  have hc : (lexAt cs p).current_char = cs[p]? := rfl
  split
  · rename_i c2 h2
    rw [hc] at h2
    rw [digitRun_some cs p c2 h2]
    by_cases hd : c2.isDigit
    · rw [if_pos hd, if_pos hd, advance_lexAt,
        integer_aux_lexAt cs (p + 1) (acc ++ [c2])]
      have hn : p + 1 + (digitRun cs (p + 1)).length =
          p + (c2 :: digitRun cs (p + 1)).length := by
        simp only [List.length_cons]
        omega
      rw [hn]
      simp
    · rw [if_neg hd, if_neg hd]
      simp
  · rename_i h2
    rw [hc] at h2
    rw [digitRun_none cs p h2]
    simp
termination_by cs.length - p
decreasing_by
  have hlt : p < cs.length := by
    by_contra hn
    have hnone : cs[p]? = none := List.getElem?_eq_none (by omega)
    simp_all [lexAt]
  omega

theorem integer_lexAt (cs : List Char) (p : ℕ) :
    (lexAt cs p).integer =
      (digitsVal (digitRun cs p), lexAt cs (p + (digitRun cs p).length)) := by
  unfold Lexer.integer
  rw [integer_aux_lexAt]
  rfl

theorem digit_not_ws (c : Char) (hd : c.isDigit) : ¬ c.isWhitespace := by
  intro hw
  simp only [Char.isWhitespace, Bool.or_eq_true, decide_eq_true_eq] at hw
  rcases hw with ((rfl | rfl) | rfl) | rfl <;> exact absurd hd (by decide)

theorem gnt_eof (cs : List Char) (p : ℕ) (h : cs[p]? = none) :
    Lexer.get_next_token (lexAt cs p) = .ok (.eof, lexAt cs p) := by
  rw [Lexer.get_next_token]
  have hc : (lexAt cs p).current_char = none := h
  split
  · rename_i c2 h2
    rw [hc] at h2
    exact absurd h2 (by simp)
  · rfl

theorem gnt_ws (cs : List Char) (p : ℕ) (c : Char)
    (h : cs[p]? = some c) (hw : c.isWhitespace) :
    Lexer.get_next_token (lexAt cs p) =
      Lexer.get_next_token (lexAt cs p).skip_whitespace := by
  rw [Lexer.get_next_token]
  have hc : (lexAt cs p).current_char = some c := h
  split
  · rename_i c2 h2
    rw [hc] at h2
    injection h2 with h2
    subst h2
    rw [dif_pos hw]
  · rename_i h2
    rw [hc] at h2
    exact absurd h2 (by simp)

theorem gnt_digit (cs : List Char) (p : ℕ) (c : Char)
    (h : cs[p]? = some c) (hd : c.isDigit) :
    Lexer.get_next_token (lexAt cs p) =
      .ok (.int (digitsVal (digitRun cs p)),
           lexAt cs (p + (digitRun cs p).length)) := by
  rw [Lexer.get_next_token]
  have hc : (lexAt cs p).current_char = some c := h
  split
  · rename_i c2 h2
    rw [hc] at h2
    injection h2 with h2
    subst h2
    rw [dif_neg (by simp [digit_not_ws c hd]), if_pos hd, integer_lexAt]
  · rename_i h2
    rw [hc] at h2
    exact absurd h2 (by simp)

theorem gnt_plus (cs : List Char) (p : ℕ) (h : cs[p]? = some '+') :
    Lexer.get_next_token (lexAt cs p) = .ok (.plus, lexAt cs (p + 1)) := by
  rw [Lexer.get_next_token]
  have hc : (lexAt cs p).current_char = some '+' := h
  split
  · rename_i c2 h2
    rw [hc] at h2
    injection h2 with h2
    subst h2
    rw [dif_neg (by decide), if_neg (by decide), if_pos rfl, advance_lexAt]
  · rename_i h2
    rw [hc] at h2
    exact absurd h2 (by simp)

theorem gnt_minus (cs : List Char) (p : ℕ) (h : cs[p]? = some '-') :
    Lexer.get_next_token (lexAt cs p) = .ok (.minus, lexAt cs (p + 1)) := by
  rw [Lexer.get_next_token]
  have hc : (lexAt cs p).current_char = some '-' := h
  split
  · rename_i c2 h2
    rw [hc] at h2
    injection h2 with h2
    subst h2
    rw [dif_neg (by decide), if_neg (by decide), if_neg (by decide),
      if_pos rfl, advance_lexAt]
  · rename_i h2
    rw [hc] at h2
    exact absurd h2 (by simp)

theorem gnt_mul (cs : List Char) (p : ℕ) (h : cs[p]? = some '*') :
    Lexer.get_next_token (lexAt cs p) = .ok (.mul, lexAt cs (p + 1)) := by
  rw [Lexer.get_next_token]
  have hc : (lexAt cs p).current_char = some '*' := h
  split
  · rename_i c2 h2
    rw [hc] at h2
    injection h2 with h2
    subst h2
    rw [dif_neg (by decide), if_neg (by decide), if_neg (by decide),
      if_neg (by decide), if_pos rfl, advance_lexAt]
  · rename_i h2
    rw [hc] at h2
    exact absurd h2 (by simp)

theorem gnt_div (cs : List Char) (p : ℕ) (h : cs[p]? = some '/') :
    Lexer.get_next_token (lexAt cs p) = .ok (.div, lexAt cs (p + 1)) := by
  rw [Lexer.get_next_token]
  have hc : (lexAt cs p).current_char = some '/' := h
  split
  · rename_i c2 h2
    rw [hc] at h2
    injection h2 with h2
    subst h2
    rw [dif_neg (by decide), if_neg (by decide), if_neg (by decide),
      if_neg (by decide), if_neg (by decide), if_pos rfl, advance_lexAt]
  · rename_i h2
    rw [hc] at h2
    exact absurd h2 (by simp)

theorem gnt_lparen (cs : List Char) (p : ℕ) (h : cs[p]? = some '(') :
    Lexer.get_next_token (lexAt cs p) = .ok (.lparen, lexAt cs (p + 1)) := by
  rw [Lexer.get_next_token]
  have hc : (lexAt cs p).current_char = some '(' := h
  split
  · rename_i c2 h2
    rw [hc] at h2
    injection h2 with h2
    subst h2
    rw [dif_neg (by decide), if_neg (by decide), if_neg (by decide),
      if_neg (by decide), if_neg (by decide), if_neg (by decide),
      if_pos rfl, advance_lexAt]
  · rename_i h2
    rw [hc] at h2
    exact absurd h2 (by simp)

theorem gnt_rparen (cs : List Char) (p : ℕ) (h : cs[p]? = some ')') :
    Lexer.get_next_token (lexAt cs p) = .ok (.rparen, lexAt cs (p + 1)) := by
  rw [Lexer.get_next_token]
  have hc : (lexAt cs p).current_char = some ')' := h
  split
  · rename_i c2 h2
    rw [hc] at h2
    injection h2 with h2
    subst h2
    rw [dif_neg (by decide), if_neg (by decide), if_neg (by decide),
      if_neg (by decide), if_neg (by decide), if_neg (by decide),
      if_neg (by decide), if_pos rfl, advance_lexAt]
  · rename_i h2
    rw [hc] at h2
    exact absurd h2 (by simp)

theorem gnt_other (cs : List Char) (p : ℕ) (c : Char)
    (h : cs[p]? = some c) (hw : ¬ c.isWhitespace) (hd : ¬ c.isDigit)
    (h1 : c ≠ '+') (h2 : c ≠ '-') (h3 : c ≠ '*') (h4 : c ≠ '/')
    (h5 : c ≠ '(') (h6 : c ≠ ')') :
    Lexer.get_next_token (lexAt cs p) = .error (.lexical c) := by
  rw [Lexer.get_next_token]
  have hc : (lexAt cs p).current_char = some c := h
  split
  · rename_i c2 hq
    rw [hc] at hq
    injection hq with hq
    subst hq
    rw [dif_neg (by simp [hw]), if_neg (by simp [hd]), if_neg h1, if_neg h2,
      if_neg h3, if_neg h4, if_neg h5, if_neg h6]
  · rename_i hq
    rw [hc] at hq
    exact absurd hq (by simp)

/-! ### Parser stepping lemmas -/

theorem eat_ok (l : Lexer) (t : Tok) (tt : TokType) (t2 : Tok) (l2 : Lexer)
    (h1 : t.type = tt) (h2 : l.get_next_token = .ok (t2, l2)) :
    Parser.eat ⟨l, t⟩ tt = .ok ⟨l2, t2⟩ := by
  unfold Parser.eat
  rw [if_pos h1, h2]

theorem eat_err (l : Lexer) (t : Tok) (tt : TokType) (e : Err)
    (h1 : t.type = tt) (h2 : l.get_next_token = .error e) :
    Parser.eat ⟨l, t⟩ tt = .error e := by
  unfold Parser.eat
  rw [if_pos h1, h2]

theorem eat_mismatch (p : Parser) (tt : TokType)
    (h : p.current_token.type ≠ tt) : p.eat tt = .error .parsing := by
  unfold Parser.eat
  rw [if_neg h]

theorem factor_int (l : Lexer) (n : ℕ) (p1 : Parser)
    (heat : Parser.eat ⟨l, .int n⟩ .int = .ok p1) :
    (Parser.factor ⟨l, .int n⟩).val = .ok (some (.num n), p1) := by
  simp only [Parser.factor]
  split
  · rename_i p1' heq
    rw [heat] at heq
    injection heq with heq
    subst heq
    rfl
  · rename_i e heq
    rw [heat] at heq
    cases heq

theorem factor_paren (l : Lexer) (p1 p3 : Parser) (node : Option AST)
    (p2 : Parser)
    (heat : Parser.eat ⟨l, .lparen⟩ .lparen = .ok p1)
    (hexpr : (Parser.expr p1).val = .ok (node, p2))
    (heat2 : p2.eat .rparen = .ok p3) :
    (Parser.factor ⟨l, .lparen⟩).val = .ok (node, p3) := by
  simp only [Parser.factor]
  split
  · rename_i p1' heq
    rw [heat] at heq
    injection heq with heq
    subst heq
    split
    · rename_i node' p2' hb heq2
      have hv : (Parser.expr p1).val = .ok (node', p2') := by rw [heq2]
      rw [hexpr] at hv
      injection hv with hv
      injection hv with hv1 hv2
      subst hv1
      subst hv2
      split
      · rename_i p3' heq3
        rw [heat2] at heq3
        injection heq3 with heq3
        subst heq3
        rfl
      · rename_i e heq3
        rw [heat2] at heq3
        cases heq3
    · rename_i e hb heq2
      have hv : (Parser.expr p1).val = .error e := by rw [heq2]
      rw [hexpr] at hv
      cases hv
  · rename_i e heq
    rw [heat] at heq
    cases heq

theorem factor_paren_rparen_err (l : Lexer) (p1 : Parser) (node : Option AST)
    (p2 : Parser) (e : Err)
    (heat : Parser.eat ⟨l, .lparen⟩ .lparen = .ok p1)
    (hexpr : (Parser.expr p1).val = .ok (node, p2))
    (heat2 : p2.eat .rparen = .error e) :
    (Parser.factor ⟨l, .lparen⟩).val = .error e := by
  simp only [Parser.factor]
  split
  · rename_i p1' heq
    rw [heat] at heq
    injection heq with heq
    subst heq
    split
    · rename_i node' p2' hb heq2
      have hv : (Parser.expr p1).val = .ok (node', p2') := by rw [heq2]
      rw [hexpr] at hv
      injection hv with hv
      injection hv with hv1 hv2
      subst hv1
      subst hv2
      split
      · rename_i p3' heq3
        rw [heat2] at heq3
        cases heq3
      · rename_i e' heq3
        rw [heat2] at heq3
        injection heq3 with heq3
        subst heq3
        rfl
    · rename_i e' hb heq2
      have hv : (Parser.expr p1).val = .error e' := by rw [heq2]
      rw [hexpr] at hv
      cases hv
  · rename_i e' heq
    rw [heat] at heq
    cases heq

theorem factor_other (l : Lexer) (t : Tok)
    (hint : ∀ n, t ≠ .int n) (hlp : t ≠ .lparen) :
    (Parser.factor ⟨l, t⟩).val = .ok (none, ⟨l, t⟩) := by
  cases t
  case int n => exact absurd rfl (hint n)
  case lparen => exact absurd rfl hlp
  all_goals simp only [Parser.factor]
  all_goals rfl


theorem term_loop_stop (p : Parser) (node : Option AST)
    (h1 : p.current_token.type ≠ .mul) (h2 : p.current_token.type ≠ .div) :
    (Parser.term_loop p node).val = .ok (node, p) := by
  rw [Parser.term_loop]
  split
  · exact absurd (by assumption) h1
  · exact absurd (by assumption) h2
  · rfl

theorem term_loop_mul (p : Parser) (node : Option AST) (p1 : Parser)
    (right : Option AST) (p2 : Parser)
    (htok : p.current_token.type = .mul)
    (heat : p.eat .mul = .ok p1)
    (hf : (Parser.factor p1).val = .ok (right, p2)) :
    (Parser.term_loop p node).val =
      (Parser.term_loop p2 (some (.binOp node .mul right))).val := by
  conv_lhs => rw [Parser.term_loop]
  split
  · split
    · rename_i p1' heq
      rw [heat] at heq
      injection heq with heq
      subst heq
      split
      · rename_i right' p2' hb heq2
        have hv : (Parser.factor p1).val = .ok (right', p2') := by rw [heq2]
        rw [hf] at hv
        injection hv with hv
        injection hv with hv1 hv2
        subst hv1
        subst hv2
        split
        · rename_i r' hb2 heq3
          have hv3 : (Parser.term_loop p2 (some (.binOp node .mul right))).val = r' := by
            rw [heq3]
          rw [hv3]
      · rename_i e hb heq2
        have hv : (Parser.factor p1).val = .error e := by rw [heq2]
        rw [hf] at hv
        cases hv
    · rename_i e heq
      rw [heat] at heq
      cases heq
  · rename_i htok2
    rw [htok] at htok2
    cases htok2
  · rename_i hn1 hn2
    exact absurd htok hn1

theorem term_loop_div (p : Parser) (node : Option AST) (p1 : Parser)
    (right : Option AST) (p2 : Parser)
    (htok : p.current_token.type = .div)
    (heat : p.eat .div = .ok p1)
    (hf : (Parser.factor p1).val = .ok (right, p2)) :
    (Parser.term_loop p node).val =
      (Parser.term_loop p2 (some (.binOp node .div right))).val := by
  conv_lhs => rw [Parser.term_loop]
  split
  · rename_i htok2
    rw [htok] at htok2
    cases htok2
  · split
    · rename_i p1' heq
      rw [heat] at heq
      injection heq with heq
      subst heq
      split
      · rename_i right' p2' hb heq2
        have hv : (Parser.factor p1).val = .ok (right', p2') := by rw [heq2]
        rw [hf] at hv
        injection hv with hv
        injection hv with hv1 hv2
        subst hv1
        subst hv2
        split
        · rename_i r' hb2 heq3
          have hv3 : (Parser.term_loop p2 (some (.binOp node .div right))).val = r' := by
            rw [heq3]
          rw [hv3]
      · rename_i e hb heq2
        have hv : (Parser.factor p1).val = .error e := by rw [heq2]
        rw [hf] at hv
        cases hv
    · rename_i e heq
      rw [heat] at heq
      cases heq
  · rename_i hn1 hn2
    exact absurd htok hn2

theorem term_ok (p : Parser) (node : Option AST) (p1 : Parser)
    (hf : (Parser.factor p).val = .ok (node, p1)) :
    (Parser.term p).val = (Parser.term_loop p1 node).val := by
  conv_lhs => rw [Parser.term]
  split
  · rename_i node' p1' hb heq
    have hv : (Parser.factor p).val = .ok (node', p1') := by rw [heq]
    rw [hf] at hv
    injection hv with hv
    injection hv with hv1 hv2
    subst hv1
    subst hv2
    split
    · rename_i r' hb2 heq2
      have hv3 : (Parser.term_loop p1 node).val = r' := by rw [heq2]
      rw [hv3]
  · rename_i e hb heq
    have hv : (Parser.factor p).val = .error e := by rw [heq]
    rw [hf] at hv
    cases hv

theorem term_err (p : Parser) (e : Err)
    (hf : (Parser.factor p).val = .error e) :
    (Parser.term p).val = .error e := by
  rw [Parser.term]
  split
  · rename_i node' p1' hb heq
    have hv : (Parser.factor p).val = .ok (node', p1') := by rw [heq]
    rw [hf] at hv
    cases hv
  · rename_i e' hb heq
    have hv : (Parser.factor p).val = .error e' := by rw [heq]
    rw [hf] at hv
    injection hv with hv
    subst hv
    rfl

theorem expr_loop_stop (p : Parser) (node : Option AST)
    (h1 : p.current_token.type ≠ .plus) (h2 : p.current_token.type ≠ .minus) :
    (Parser.expr_loop p node).val = .ok (node, p) := by
  rw [Parser.expr_loop]
  split
  · exact absurd (by assumption) h1
  · exact absurd (by assumption) h2
  · rfl

theorem expr_loop_plus (p : Parser) (node : Option AST) (p1 : Parser)
    (right : Option AST) (p2 : Parser)
    (htok : p.current_token.type = .plus)
    (heat : p.eat .plus = .ok p1)
    (ht : (Parser.term p1).val = .ok (right, p2)) :
    (Parser.expr_loop p node).val =
      (Parser.expr_loop p2 (some (.binOp node .plus right))).val := by
  conv_lhs => rw [Parser.expr_loop]
  split
  · split
    · rename_i p1' heq
      rw [heat] at heq
      injection heq with heq
      subst heq
      split
      · rename_i right' p2' hb heq2
        have hv : (Parser.term p1).val = .ok (right', p2') := by rw [heq2]
        rw [ht] at hv
        injection hv with hv
        injection hv with hv1 hv2
        subst hv1
        subst hv2
        split
        · rename_i r' hb2 heq3
          have hv3 : (Parser.expr_loop p2 (some (.binOp node .plus right))).val = r' := by
            rw [heq3]
          rw [hv3]
      · rename_i e hb heq2
        have hv : (Parser.term p1).val = .error e := by rw [heq2]
        rw [ht] at hv
        cases hv
    · rename_i e heq
      rw [heat] at heq
      cases heq
  · rename_i htok2
    rw [htok] at htok2
    cases htok2
  · rename_i hn1 hn2
    exact absurd htok hn1

theorem expr_loop_plus_eat_err (p : Parser) (node : Option AST) (e : Err)
    (htok : p.current_token.type = .plus)
    (heat : p.eat .plus = .error e) :
    (Parser.expr_loop p node).val = .error e := by
  rw [Parser.expr_loop]
  split
  · split
    · rename_i p1' heq
      rw [heat] at heq
      cases heq
    · rename_i e' heq
      rw [heat] at heq
      injection heq with heq
      subst heq
      rfl
  · rename_i htok2
    rw [htok] at htok2
    cases htok2
  · rename_i hn1 hn2
    exact absurd htok hn1

theorem expr_loop_minus (p : Parser) (node : Option AST) (p1 : Parser)
    (right : Option AST) (p2 : Parser)
    (htok : p.current_token.type = .minus)
    (heat : p.eat .minus = .ok p1)
    (ht : (Parser.term p1).val = .ok (right, p2)) :
    (Parser.expr_loop p node).val =
      (Parser.expr_loop p2 (some (.binOp node .minus right))).val := by
  conv_lhs => rw [Parser.expr_loop]
  split
  · rename_i htok2
    rw [htok] at htok2
    cases htok2
  · split
    · rename_i p1' heq
      rw [heat] at heq
      injection heq with heq
      subst heq
      split
      · rename_i right' p2' hb heq2
        have hv : (Parser.term p1).val = .ok (right', p2') := by rw [heq2]
        rw [ht] at hv
        injection hv with hv
        injection hv with hv1 hv2
        subst hv1
        subst hv2
        split
        · rename_i r' hb2 heq3
          have hv3 : (Parser.expr_loop p2 (some (.binOp node .minus right))).val = r' := by
            rw [heq3]
          rw [hv3]
      · rename_i e hb heq2
        have hv : (Parser.term p1).val = .error e := by rw [heq2]
        rw [ht] at hv
        cases hv
    · rename_i e heq
      rw [heat] at heq
      cases heq
  · rename_i hn1 hn2
    exact absurd htok hn2

theorem expr_ok (p : Parser) (node : Option AST) (p1 : Parser)
    (ht : (Parser.term p).val = .ok (node, p1)) :
    (Parser.expr p).val = (Parser.expr_loop p1 node).val := by
  conv_lhs => rw [Parser.expr]
  split
  · rename_i node' p1' hb heq
    have hv : (Parser.term p).val = .ok (node', p1') := by rw [heq]
    rw [ht] at hv
    injection hv with hv
    injection hv with hv1 hv2
    subst hv1
    subst hv2
    split
    · rename_i r' hb2 heq2
      have hv3 : (Parser.expr_loop p1 node).val = r' := by rw [heq2]
      rw [hv3]
  · rename_i e hb heq
    have hv : (Parser.term p).val = .error e := by rw [heq]
    rw [ht] at hv
    cases hv

theorem expr_err (p : Parser) (e : Err)
    (ht : (Parser.term p).val = .error e) :
    (Parser.expr p).val = .error e := by
  rw [Parser.expr]
  split
  · rename_i node' p1' hb heq
    have hv : (Parser.term p).val = .ok (node', p1') := by rw [heq]
    rw [ht] at hv
    cases hv
  · rename_i e' hb heq
    have hv : (Parser.term p).val = .error e' := by rw [heq]
    rw [ht] at hv
    injection hv with hv
    subst hv
    rfl

theorem parse_ok (p : Parser) (node : Option AST) (p1 : Parser)
    (he : (Parser.expr p).val = .ok (node, p1))
    (heof : p1.current_token.type = .eof) :
    Parser.parse p = .ok node := by
  unfold Parser.parse
  rw [he]
  simp only [if_pos heof]

theorem parse_trailing (p : Parser) (node : Option AST) (p1 : Parser)
    (he : (Parser.expr p).val = .ok (node, p1))
    (heof : p1.current_token.type ≠ .eof) :
    Parser.parse p = .error .parsing := by
  unfold Parser.parse
  rw [he]
  simp only [if_neg heof]

theorem parse_err (p : Parser) (e : Err)
    (he : (Parser.expr p).val = .error e) :
    Parser.parse p = .error e := by
  unfold Parser.parse
  rw [he]

theorem init_ok (l : Lexer) (t : Tok) (l2 : Lexer)
    (h : l.get_next_token = .ok (t, l2)) :
    Parser.init l = .ok ⟨l2, t⟩ := by
  unfold Parser.init
  rw [h]

theorem init_err (l : Lexer) (e : Err)
    (h : l.get_next_token = .error e) :
    Parser.init l = .error e := by
  unfold Parser.init
  rw [h]

theorem interpret_ok (p : Parser) (tree : Option AST)
    (h : p.parse = .ok tree) :
    Interpreter.interpret p = Interpreter.visit tree := by
  unfold Interpreter.interpret
  rw [h]
  rfl

theorem interpret_err (p : Parser) (e : Err)
    (h : p.parse = .error e) :
    Interpreter.interpret p = .error e := by
  unfold Interpreter.interpret
  rw [h]
  rfl

theorem evaluate_ok (s : String) (p : Parser)
    (h : Parser.init (Lexer.init s.data) = .ok p) :
    evaluate s = Interpreter.interpret p := by
  unfold evaluate
  rw [h]

theorem evaluate_err (s : String) (e : Err)
    (h : Parser.init (Lexer.init s.data) = .error e) :
    evaluate s = .error e := by
  unfold evaluate
  rw [h]

theorem digitRun_eq (cs : List Char) (p : ℕ) :
    digitRun cs p = (cs.drop p).takeWhile Char.isDigit := by
  rcases Nat.lt_or_ge p cs.length with hp | hp
  · have hd : cs.drop p = cs[p] :: cs.drop (p + 1) := List.drop_eq_getElem_cons hp
    rw [digitRun_some cs p cs[p] (List.getElem?_eq_getElem hp), hd,
      List.takeWhile_cons]
    by_cases hdig : cs[p].isDigit
    · rw [if_pos hdig, hdig, digitRun_eq cs (p + 1)]
      rfl
    · rw [Bool.not_eq_true] at hdig
      rw [if_neg (by simp [hdig]), hdig]
      rfl
  · rw [digitRun_none cs p (List.getElem?_eq_none hp),
      List.drop_eq_nil_of_le hp]
    rfl
termination_by cs.length - p

theorem ok_bind {ε α β : Type} (a : α) (f : α → Except ε β) :
    (Except.ok a : Except ε α) >>= f = f a := rfl

theorem error_bind {ε α β : Type} (e : ε) (f : α → Except ε β) :
    (Except.error e : Except ε α) >>= f = .error e := rfl

theorem pure_eq_ok {ε α : Type} (a : α) :
    (pure a : Except ε α) = .ok a := rfl

/-! ### Concrete pipeline runs -/

theorem eval_two_plus_three_times_four : evaluate "2+3*4" = .ok 14 := by
  set cs : List Char := ['2', '+', '3', '*', '4'] with hcsdef
  have t0 : Lexer.get_next_token (lexAt cs 0) = .ok (.int 2, lexAt cs 1) := by
    have h := gnt_digit cs 0 '2' rfl (by decide)
    rw [digitRun_eq] at h
    exact h
  have t1 : Lexer.get_next_token (lexAt cs 1) = .ok (.plus, lexAt cs 2) :=
    gnt_plus cs 1 rfl
  have t2 : Lexer.get_next_token (lexAt cs 2) = .ok (.int 3, lexAt cs 3) := by
    have h := gnt_digit cs 2 '3' rfl (by decide)
    rw [digitRun_eq] at h
    exact h
  have t3 : Lexer.get_next_token (lexAt cs 3) = .ok (.mul, lexAt cs 4) :=
    gnt_mul cs 3 rfl
  have t4 : Lexer.get_next_token (lexAt cs 4) = .ok (.int 4, lexAt cs 5) := by
    have h := gnt_digit cs 4 '4' rfl (by decide)
    rw [digitRun_eq] at h
    exact h
  have t5 : Lexer.get_next_token (lexAt cs 5) = .ok (.eof, lexAt cs 5) :=
    gnt_eof cs 5 rfl
  have e0 : Parser.init (Lexer.init cs) = .ok ⟨lexAt cs 1, .int 2⟩ := by
    rw [init_eq_lexAt]
    exact init_ok _ _ _ t0
  have hf0 : (Parser.factor ⟨lexAt cs 1, .int 2⟩).val =
      .ok (some (.num 2), ⟨lexAt cs 2, .plus⟩) :=
    factor_int _ _ _ (eat_ok _ _ _ _ _ rfl t1)
  have ht0 : (Parser.term ⟨lexAt cs 1, .int 2⟩).val =
      .ok (some (.num 2), ⟨lexAt cs 2, .plus⟩) := by
    rw [term_ok _ _ _ hf0]
    exact term_loop_stop _ _ (by decide) (by decide)
  have hf1 : (Parser.factor ⟨lexAt cs 3, .int 3⟩).val =
      .ok (some (.num 3), ⟨lexAt cs 4, .mul⟩) :=
    factor_int _ _ _ (eat_ok _ _ _ _ _ rfl t3)
  have hf2 : (Parser.factor ⟨lexAt cs 5, .int 4⟩).val =
      .ok (some (.num 4), ⟨lexAt cs 5, .eof⟩) :=
    factor_int _ _ _ (eat_ok _ _ _ _ _ rfl t5)
  have ht1 : (Parser.term ⟨lexAt cs 3, .int 3⟩).val =
      .ok (some (.binOp (some (.num 3)) .mul (some (.num 4))), ⟨lexAt cs 5, .eof⟩) := by
    rw [term_ok _ _ _ hf1,
      term_loop_mul ⟨lexAt cs 4, .mul⟩ (some (.num 3)) ⟨lexAt cs 5, .int 4⟩
        (some (.num 4)) ⟨lexAt cs 5, .eof⟩ rfl
        (eat_ok (lexAt cs 4) .mul .mul (.int 4) (lexAt cs 5) rfl t4) hf2]
    exact term_loop_stop _ _ (by decide) (by decide)
  have he : (Parser.expr ⟨lexAt cs 1, .int 2⟩).val =
      .ok (some (.binOp (some (.num 2)) .plus
             (some (.binOp (some (.num 3)) .mul (some (.num 4))))),
           ⟨lexAt cs 5, .eof⟩) := by
    rw [expr_ok _ _ _ ht0,
      expr_loop_plus ⟨lexAt cs 2, .plus⟩ (some (.num 2)) ⟨lexAt cs 3, .int 3⟩
        (some (.binOp (some (.num 3)) .mul (some (.num 4)))) ⟨lexAt cs 5, .eof⟩ rfl
        (eat_ok (lexAt cs 2) .plus .plus (.int 3) (lexAt cs 3) rfl t2) ht1]
    exact expr_loop_stop _ _ (by decide) (by decide)
  have hp : Parser.parse ⟨lexAt cs 1, .int 2⟩ =
      .ok (some (.binOp (some (.num 2)) .plus
             (some (.binOp (some (.num 3)) .mul (some (.num 4)))))) :=
    parse_ok _ _ _ he rfl
  rw [show ("2+3*4" : String) = ⟨cs⟩ from rfl]
  rw [evaluate_ok _ _ e0, interpret_ok _ _ hp]
  simp only [Interpreter.visit, Interpreter.visit_BinOp, Interpreter.visit_Num,
    ok_bind, pure_eq_ok, Except.ok.injEq]
  norm_num

theorem eval_ten_minus_two_minus_three : evaluate "10-2-3" = .ok 5 := by
  set cs : List Char := ['1', '0', '-', '2', '-', '3'] with hcsdef
  have t0 : Lexer.get_next_token (lexAt cs 0) = .ok (.int 10, lexAt cs 2) := by
    have h := gnt_digit cs 0 '1' rfl (by decide)
    rw [digitRun_eq] at h
    exact h
  have t1 : Lexer.get_next_token (lexAt cs 2) = .ok (.minus, lexAt cs 3) :=
    gnt_minus cs 2 rfl
  have t2 : Lexer.get_next_token (lexAt cs 3) = .ok (.int 2, lexAt cs 4) := by
    have h := gnt_digit cs 3 '2' rfl (by decide)
    rw [digitRun_eq] at h
    exact h
  have t3 : Lexer.get_next_token (lexAt cs 4) = .ok (.minus, lexAt cs 5) :=
    gnt_minus cs 4 rfl
  have t4 : Lexer.get_next_token (lexAt cs 5) = .ok (.int 3, lexAt cs 6) := by
    have h := gnt_digit cs 5 '3' rfl (by decide)
    rw [digitRun_eq] at h
    exact h
  have t5 : Lexer.get_next_token (lexAt cs 6) = .ok (.eof, lexAt cs 6) :=
    gnt_eof cs 6 rfl
  have e0 : Parser.init (Lexer.init cs) = .ok ⟨lexAt cs 2, .int 10⟩ := by
    rw [init_eq_lexAt]
    exact init_ok _ _ _ t0
  have hf0 : (Parser.factor ⟨lexAt cs 2, .int 10⟩).val =
      .ok (some (.num 10), ⟨lexAt cs 3, .minus⟩) :=
    factor_int _ _ _ (eat_ok _ _ _ _ _ rfl t1)
  have ht0 : (Parser.term ⟨lexAt cs 2, .int 10⟩).val =
      .ok (some (.num 10), ⟨lexAt cs 3, .minus⟩) := by
    rw [term_ok _ _ _ hf0]
    exact term_loop_stop _ _ (by decide) (by decide)
  have hf1 : (Parser.factor ⟨lexAt cs 4, .int 2⟩).val =
      .ok (some (.num 2), ⟨lexAt cs 5, .minus⟩) :=
    factor_int _ _ _ (eat_ok _ _ _ _ _ rfl t3)
  have ht1 : (Parser.term ⟨lexAt cs 4, .int 2⟩).val =
      .ok (some (.num 2), ⟨lexAt cs 5, .minus⟩) := by
    rw [term_ok _ _ _ hf1]
    exact term_loop_stop _ _ (by decide) (by decide)
  have hf2 : (Parser.factor ⟨lexAt cs 6, .int 3⟩).val =
      .ok (some (.num 3), ⟨lexAt cs 6, .eof⟩) :=
    factor_int _ _ _ (eat_ok _ _ _ _ _ rfl t5)
  have ht2 : (Parser.term ⟨lexAt cs 6, .int 3⟩).val =
      .ok (some (.num 3), ⟨lexAt cs 6, .eof⟩) := by
    rw [term_ok _ _ _ hf2]
    exact term_loop_stop _ _ (by decide) (by decide)
  have he : (Parser.expr ⟨lexAt cs 2, .int 10⟩).val =
      .ok (some (.binOp (some (.binOp (some (.num 10)) .minus (some (.num 2))))
             .minus (some (.num 3))),
           ⟨lexAt cs 6, .eof⟩) := by
    rw [expr_ok _ _ _ ht0,
      expr_loop_minus ⟨lexAt cs 3, .minus⟩ (some (.num 10)) ⟨lexAt cs 4, .int 2⟩
        (some (.num 2)) ⟨lexAt cs 5, .minus⟩ rfl
        (eat_ok (lexAt cs 3) .minus .minus (.int 2) (lexAt cs 4) rfl t2) ht1,
      expr_loop_minus ⟨lexAt cs 5, .minus⟩
        (some (.binOp (some (.num 10)) .minus (some (.num 2)))) ⟨lexAt cs 6, .int 3⟩
        (some (.num 3)) ⟨lexAt cs 6, .eof⟩ rfl
        (eat_ok (lexAt cs 5) .minus .minus (.int 3) (lexAt cs 6) rfl t4) ht2]
    exact expr_loop_stop _ _ (by decide) (by decide)
  have hp : Parser.parse ⟨lexAt cs 2, .int 10⟩ =
      .ok (some (.binOp (some (.binOp (some (.num 10)) .minus (some (.num 2))))
             .minus (some (.num 3)))) :=
    parse_ok _ _ _ he rfl
  rw [show ("10-2-3" : String) = ⟨cs⟩ from rfl]
  rw [evaluate_ok _ _ e0, interpret_ok _ _ hp]
  simp only [Interpreter.visit, Interpreter.visit_BinOp, Interpreter.visit_Num,
    ok_bind, pure_eq_ok, Except.ok.injEq]
  norm_num

theorem eval_paren_two_plus_three_times_four : evaluate "(2+3)*4" = .ok 20 := by
  set cs : List Char := ['(', '2', '+', '3', ')', '*', '4'] with hcsdef
  have t0 : Lexer.get_next_token (lexAt cs 0) = .ok (.lparen, lexAt cs 1) :=
    gnt_lparen cs 0 rfl
  have t1 : Lexer.get_next_token (lexAt cs 1) = .ok (.int 2, lexAt cs 2) := by
    have h := gnt_digit cs 1 '2' rfl (by decide)
    rw [digitRun_eq] at h
    exact h
  have t2 : Lexer.get_next_token (lexAt cs 2) = .ok (.plus, lexAt cs 3) :=
    gnt_plus cs 2 rfl
  have t3 : Lexer.get_next_token (lexAt cs 3) = .ok (.int 3, lexAt cs 4) := by
    have h := gnt_digit cs 3 '3' rfl (by decide)
    rw [digitRun_eq] at h
    exact h
  have t4 : Lexer.get_next_token (lexAt cs 4) = .ok (.rparen, lexAt cs 5) :=
    gnt_rparen cs 4 rfl
  have t5 : Lexer.get_next_token (lexAt cs 5) = .ok (.mul, lexAt cs 6) :=
    gnt_mul cs 5 rfl
  have t6 : Lexer.get_next_token (lexAt cs 6) = .ok (.int 4, lexAt cs 7) := by
    have h := gnt_digit cs 6 '4' rfl (by decide)
    rw [digitRun_eq] at h
    exact h
  have t7 : Lexer.get_next_token (lexAt cs 7) = .ok (.eof, lexAt cs 7) :=
    gnt_eof cs 7 rfl
  have e0 : Parser.init (Lexer.init cs) = .ok ⟨lexAt cs 1, .lparen⟩ := by
    rw [init_eq_lexAt]
    exact init_ok _ _ _ t0
  have hfi : (Parser.factor ⟨lexAt cs 2, .int 2⟩).val =
      .ok (some (.num 2), ⟨lexAt cs 3, .plus⟩) :=
    factor_int _ _ _ (eat_ok _ _ _ _ _ rfl t2)
  have hti : (Parser.term ⟨lexAt cs 2, .int 2⟩).val =
      .ok (some (.num 2), ⟨lexAt cs 3, .plus⟩) := by
    rw [term_ok _ _ _ hfi]
    exact term_loop_stop _ _ (by decide) (by decide)
  have hfi2 : (Parser.factor ⟨lexAt cs 4, .int 3⟩).val =
      .ok (some (.num 3), ⟨lexAt cs 5, .rparen⟩) :=
    factor_int _ _ _ (eat_ok _ _ _ _ _ rfl t4)
  have hti2 : (Parser.term ⟨lexAt cs 4, .int 3⟩).val =
      .ok (some (.num 3), ⟨lexAt cs 5, .rparen⟩) := by
    rw [term_ok _ _ _ hfi2]
    exact term_loop_stop _ _ (by decide) (by decide)
  have hei : (Parser.expr ⟨lexAt cs 2, .int 2⟩).val =
      .ok (some (.binOp (some (.num 2)) .plus (some (.num 3))),
           ⟨lexAt cs 5, .rparen⟩) := by
    rw [expr_ok _ _ _ hti,
      expr_loop_plus ⟨lexAt cs 3, .plus⟩ (some (.num 2)) ⟨lexAt cs 4, .int 3⟩
        (some (.num 3)) ⟨lexAt cs 5, .rparen⟩ rfl
        (eat_ok (lexAt cs 3) .plus .plus (.int 3) (lexAt cs 4) rfl t3) hti2]
    exact expr_loop_stop _ _ (by decide) (by decide)
  have hf0 : (Parser.factor ⟨lexAt cs 1, .lparen⟩).val =
      .ok (some (.binOp (some (.num 2)) .plus (some (.num 3))),
           ⟨lexAt cs 6, .mul⟩) :=
    factor_paren _ _ _ _ _ (eat_ok _ _ _ _ _ rfl t1) hei
      (eat_ok _ _ _ _ _ rfl t5)
  have hf1 : (Parser.factor ⟨lexAt cs 7, .int 4⟩).val =
      .ok (some (.num 4), ⟨lexAt cs 7, .eof⟩) :=
    factor_int _ _ _ (eat_ok _ _ _ _ _ rfl t7)
  have ht0 : (Parser.term ⟨lexAt cs 1, .lparen⟩).val =
      .ok (some (.binOp (some (.binOp (some (.num 2)) .plus (some (.num 3))))
             .mul (some (.num 4))),
           ⟨lexAt cs 7, .eof⟩) := by
    rw [term_ok _ _ _ hf0,
      term_loop_mul ⟨lexAt cs 6, .mul⟩
        (some (.binOp (some (.num 2)) .plus (some (.num 3)))) ⟨lexAt cs 7, .int 4⟩
        (some (.num 4)) ⟨lexAt cs 7, .eof⟩ rfl
        (eat_ok (lexAt cs 6) .mul .mul (.int 4) (lexAt cs 7) rfl t6) hf1]
    exact term_loop_stop _ _ (by decide) (by decide)
  have he : (Parser.expr ⟨lexAt cs 1, .lparen⟩).val =
      .ok (some (.binOp (some (.binOp (some (.num 2)) .plus (some (.num 3))))
             .mul (some (.num 4))),
           ⟨lexAt cs 7, .eof⟩) := by
    rw [expr_ok _ _ _ ht0]
    exact expr_loop_stop _ _ (by decide) (by decide)
  have hp : Parser.parse ⟨lexAt cs 1, .lparen⟩ =
      .ok (some (.binOp (some (.binOp (some (.num 2)) .plus (some (.num 3))))
             .mul (some (.num 4)))) :=
    parse_ok _ _ _ he rfl
  rw [show ("(2+3)*4" : String) = ⟨cs⟩ from rfl]
  rw [evaluate_ok _ _ e0, interpret_ok _ _ hp]
  simp only [Interpreter.visit, Interpreter.visit_BinOp, Interpreter.visit_Num,
    ok_bind, pure_eq_ok, Except.ok.injEq]
  norm_num

theorem five_div_zero_pipeline :
    Parser.init (Lexer.init "5/0".data) = .ok ⟨lexAt "5/0".data 1, .int 5⟩ ∧
    Parser.parse ⟨lexAt "5/0".data 1, .int 5⟩ =
      .ok (some (.binOp (some (.num 5)) .div (some (.num 0)))) ∧
    evaluate "5/0" = .error .divisionByZero := by
  set cs : List Char := ['5', '/', '0'] with hcsdef
  have t0 : Lexer.get_next_token (lexAt cs 0) = .ok (.int 5, lexAt cs 1) := by
    have h := gnt_digit cs 0 '5' rfl (by decide)
    rw [digitRun_eq] at h
    exact h
  have t1 : Lexer.get_next_token (lexAt cs 1) = .ok (.div, lexAt cs 2) :=
    gnt_div cs 1 rfl
  have t2 : Lexer.get_next_token (lexAt cs 2) = .ok (.int 0, lexAt cs 3) := by
    have h := gnt_digit cs 2 '0' rfl (by decide)
    rw [digitRun_eq] at h
    exact h
  have t3 : Lexer.get_next_token (lexAt cs 3) = .ok (.eof, lexAt cs 3) :=
    gnt_eof cs 3 rfl
  have e0 : Parser.init (Lexer.init cs) = .ok ⟨lexAt cs 1, .int 5⟩ := by
    rw [init_eq_lexAt]
    exact init_ok _ _ _ t0
  have hf0 : (Parser.factor ⟨lexAt cs 1, .int 5⟩).val =
      .ok (some (.num 5), ⟨lexAt cs 2, .div⟩) :=
    factor_int _ _ _ (eat_ok _ _ _ _ _ rfl t1)
  have hf1 : (Parser.factor ⟨lexAt cs 3, .int 0⟩).val =
      .ok (some (.num 0), ⟨lexAt cs 3, .eof⟩) :=
    factor_int _ _ _ (eat_ok _ _ _ _ _ rfl t3)
  have ht0 : (Parser.term ⟨lexAt cs 1, .int 5⟩).val =
      .ok (some (.binOp (some (.num 5)) .div (some (.num 0))), ⟨lexAt cs 3, .eof⟩) := by
    rw [term_ok _ _ _ hf0,
      term_loop_div ⟨lexAt cs 2, .div⟩ (some (.num 5)) ⟨lexAt cs 3, .int 0⟩
        (some (.num 0)) ⟨lexAt cs 3, .eof⟩ rfl
        (eat_ok (lexAt cs 2) .div .div (.int 0) (lexAt cs 3) rfl t2) hf1]
    exact term_loop_stop _ _ (by decide) (by decide)
  have he : (Parser.expr ⟨lexAt cs 1, .int 5⟩).val =
      .ok (some (.binOp (some (.num 5)) .div (some (.num 0))), ⟨lexAt cs 3, .eof⟩) := by
    rw [expr_ok _ _ _ ht0]
    exact expr_loop_stop _ _ (by decide) (by decide)
  have hp : Parser.parse ⟨lexAt cs 1, .int 5⟩ =
      .ok (some (.binOp (some (.num 5)) .div (some (.num 0)))) :=
    parse_ok _ _ _ he rfl
  refine ⟨e0, hp, ?_⟩
  rw [show ("5/0" : String) = ⟨cs⟩ from rfl]
  rw [evaluate_ok _ _ e0, interpret_ok _ _ hp]
  simp only [Interpreter.visit, Interpreter.visit_BinOp, Interpreter.visit_Num,
    ok_bind, pure_eq_ok]
  norm_num

theorem eval_lexical_failure : evaluate "2+@" = .error (.lexical '@') := by
  set cs : List Char := ['2', '+', '@'] with hcsdef
  have t0 : Lexer.get_next_token (lexAt cs 0) = .ok (.int 2, lexAt cs 1) := by
    have h := gnt_digit cs 0 '2' rfl (by decide)
    rw [digitRun_eq] at h
    exact h
  have t1 : Lexer.get_next_token (lexAt cs 1) = .ok (.plus, lexAt cs 2) :=
    gnt_plus cs 1 rfl
  have t2 : Lexer.get_next_token (lexAt cs 2) = .error (.lexical '@') :=
    gnt_other cs 2 '@' rfl (by decide) (by decide) (by decide) (by decide)
      (by decide) (by decide) (by decide) (by decide)
  have e0 : Parser.init (Lexer.init cs) = .ok ⟨lexAt cs 1, .int 2⟩ := by
    rw [init_eq_lexAt]
    exact init_ok _ _ _ t0
  have hf0 : (Parser.factor ⟨lexAt cs 1, .int 2⟩).val =
      .ok (some (.num 2), ⟨lexAt cs 2, .plus⟩) :=
    factor_int _ _ _ (eat_ok _ _ _ _ _ rfl t1)
  have ht0 : (Parser.term ⟨lexAt cs 1, .int 2⟩).val =
      .ok (some (.num 2), ⟨lexAt cs 2, .plus⟩) := by
    rw [term_ok _ _ _ hf0]
    exact term_loop_stop _ _ (by decide) (by decide)
  have he : (Parser.expr ⟨lexAt cs 1, .int 2⟩).val = .error (.lexical '@') := by
    rw [expr_ok _ _ _ ht0]
    exact expr_loop_plus_eat_err _ _ _ rfl (eat_err _ _ _ _ rfl t2)
  have hp : Parser.parse ⟨lexAt cs 1, .int 2⟩ = .error (.lexical '@') :=
    parse_err _ _ he
  rw [show ("2+@" : String) = ⟨cs⟩ from rfl]
  rw [evaluate_ok _ _ e0, interpret_err _ _ hp]

theorem eval_unbalanced_paren : evaluate "(2+3" = .error .parsing := by
  set cs : List Char := ['(', '2', '+', '3'] with hcsdef
  have t0 : Lexer.get_next_token (lexAt cs 0) = .ok (.lparen, lexAt cs 1) :=
    gnt_lparen cs 0 rfl
  have t1 : Lexer.get_next_token (lexAt cs 1) = .ok (.int 2, lexAt cs 2) := by
    have h := gnt_digit cs 1 '2' rfl (by decide)
    rw [digitRun_eq] at h
    exact h
  have t2 : Lexer.get_next_token (lexAt cs 2) = .ok (.plus, lexAt cs 3) :=
    gnt_plus cs 2 rfl
  have t3 : Lexer.get_next_token (lexAt cs 3) = .ok (.int 3, lexAt cs 4) := by
    have h := gnt_digit cs 3 '3' rfl (by decide)
    rw [digitRun_eq] at h
    exact h
  have t4 : Lexer.get_next_token (lexAt cs 4) = .ok (.eof, lexAt cs 4) :=
    gnt_eof cs 4 rfl
  have e0 : Parser.init (Lexer.init cs) = .ok ⟨lexAt cs 1, .lparen⟩ := by
    rw [init_eq_lexAt]
    exact init_ok _ _ _ t0
  have hfi : (Parser.factor ⟨lexAt cs 2, .int 2⟩).val =
      .ok (some (.num 2), ⟨lexAt cs 3, .plus⟩) :=
    factor_int _ _ _ (eat_ok _ _ _ _ _ rfl t2)
  have hti : (Parser.term ⟨lexAt cs 2, .int 2⟩).val =
      .ok (some (.num 2), ⟨lexAt cs 3, .plus⟩) := by
    rw [term_ok _ _ _ hfi]
    exact term_loop_stop _ _ (by decide) (by decide)
  have hfi2 : (Parser.factor ⟨lexAt cs 4, .int 3⟩).val =
      .ok (some (.num 3), ⟨lexAt cs 4, .eof⟩) :=
    factor_int _ _ _ (eat_ok _ _ _ _ _ rfl t4)
  have hti2 : (Parser.term ⟨lexAt cs 4, .int 3⟩).val =
      .ok (some (.num 3), ⟨lexAt cs 4, .eof⟩) := by
    rw [term_ok _ _ _ hfi2]
    exact term_loop_stop _ _ (by decide) (by decide)
  have hei : (Parser.expr ⟨lexAt cs 2, .int 2⟩).val =
      .ok (some (.binOp (some (.num 2)) .plus (some (.num 3))),
           ⟨lexAt cs 4, .eof⟩) := by
    rw [expr_ok _ _ _ hti,
      expr_loop_plus ⟨lexAt cs 3, .plus⟩ (some (.num 2)) ⟨lexAt cs 4, .int 3⟩
        (some (.num 3)) ⟨lexAt cs 4, .eof⟩ rfl
        (eat_ok (lexAt cs 3) .plus .plus (.int 3) (lexAt cs 4) rfl t3) hti2]
    exact expr_loop_stop _ _ (by decide) (by decide)
  have hf0 : (Parser.factor ⟨lexAt cs 1, .lparen⟩).val = .error .parsing :=
    factor_paren_rparen_err _ _ _ _ _ (eat_ok _ _ _ _ _ rfl t1) hei
      (eat_mismatch _ _ (by decide))
  have he : (Parser.expr ⟨lexAt cs 1, .lparen⟩).val = .error .parsing :=
    expr_err _ _ (term_err _ _ hf0)
  have hp : Parser.parse ⟨lexAt cs 1, .lparen⟩ = .error .parsing :=
    parse_err _ _ he
  rw [show ("(2+3" : String) = ⟨cs⟩ from rfl]
  rw [evaluate_ok _ _ e0, interpret_err _ _ hp]

theorem two_space_three_pipeline :
    (Parser.expr ⟨lexAt "2 3".data 1, .int 2⟩).val =
      .ok (some (.num 2), ⟨lexAt "2 3".data 3, .int 3⟩) ∧
    evaluate "2 3" = .error .parsing := by
  set cs : List Char := ['2', ' ', '3'] with hcsdef
  have t0 : Lexer.get_next_token (lexAt cs 0) = .ok (.int 2, lexAt cs 1) := by
    have h := gnt_digit cs 0 '2' rfl (by decide)
    rw [digitRun_eq] at h
    exact h
  have t1 : Lexer.get_next_token (lexAt cs 1) = .ok (.int 3, lexAt cs 3) := by
    rw [gnt_ws cs 1 ' ' rfl (by decide),
      skip_whitespace_step cs 1 ' ' rfl (by decide),
      skip_whitespace_stop cs 2 (by intro c hc; injection hc with hc; subst hc; decide)]
    have h := gnt_digit cs 2 '3' rfl (by decide)
    rw [digitRun_eq] at h
    exact h
  have e0 : Parser.init (Lexer.init cs) = .ok ⟨lexAt cs 1, .int 2⟩ := by
    rw [init_eq_lexAt]
    exact init_ok _ _ _ t0
  have hf0 : (Parser.factor ⟨lexAt cs 1, .int 2⟩).val =
      .ok (some (.num 2), ⟨lexAt cs 3, .int 3⟩) :=
    factor_int _ _ _ (eat_ok _ _ _ _ _ rfl t1)
  have ht0 : (Parser.term ⟨lexAt cs 1, .int 2⟩).val =
      .ok (some (.num 2), ⟨lexAt cs 3, .int 3⟩) := by
    rw [term_ok _ _ _ hf0]
    exact term_loop_stop _ _ (by decide) (by decide)
  have he : (Parser.expr ⟨lexAt cs 1, .int 2⟩).val =
      .ok (some (.num 2), ⟨lexAt cs 3, .int 3⟩) := by
    rw [expr_ok _ _ _ ht0]
    exact expr_loop_stop _ _ (by decide) (by decide)
  have hp : Parser.parse ⟨lexAt cs 1, .int 2⟩ = .error .parsing :=
    parse_trailing _ _ _ he (by decide)
  refine ⟨he, ?_⟩
  rw [show ("2 3" : String) = ⟨cs⟩ from rfl]
  rw [evaluate_ok _ _ e0, interpret_err _ _ hp]

theorem plus_two_pipeline :
    Parser.init (Lexer.init "+2".data) = .ok ⟨lexAt "+2".data 1, .plus⟩ ∧
    Parser.parse ⟨lexAt "+2".data 1, .plus⟩ =
      .ok (some (.binOp none .plus (some (.num 2)))) ∧
    evaluate "+2" = .error .internal := by
  set cs : List Char := ['+', '2'] with hcsdef
  have t0 : Lexer.get_next_token (lexAt cs 0) = .ok (.plus, lexAt cs 1) :=
    gnt_plus cs 0 rfl
  have t1 : Lexer.get_next_token (lexAt cs 1) = .ok (.int 2, lexAt cs 2) := by
    have h := gnt_digit cs 1 '2' rfl (by decide)
    rw [digitRun_eq] at h
    exact h
  have t2 : Lexer.get_next_token (lexAt cs 2) = .ok (.eof, lexAt cs 2) :=
    gnt_eof cs 2 rfl
  have e0 : Parser.init (Lexer.init cs) = .ok ⟨lexAt cs 1, .plus⟩ := by
    rw [init_eq_lexAt]
    exact init_ok _ _ _ t0
  have hf0 : (Parser.factor ⟨lexAt cs 1, .plus⟩).val =
      .ok (none, ⟨lexAt cs 1, .plus⟩) :=
    factor_other _ _ (by intro n h; cases h) (by intro h; cases h)
  have ht0 : (Parser.term ⟨lexAt cs 1, .plus⟩).val =
      .ok (none, ⟨lexAt cs 1, .plus⟩) := by
    rw [term_ok _ _ _ hf0]
    exact term_loop_stop _ _ (by decide) (by decide)
  have hf1 : (Parser.factor ⟨lexAt cs 2, .int 2⟩).val =
      .ok (some (.num 2), ⟨lexAt cs 2, .eof⟩) :=
    factor_int _ _ _ (eat_ok _ _ _ _ _ rfl t2)
  have ht1 : (Parser.term ⟨lexAt cs 2, .int 2⟩).val =
      .ok (some (.num 2), ⟨lexAt cs 2, .eof⟩) := by
    rw [term_ok _ _ _ hf1]
    exact term_loop_stop _ _ (by decide) (by decide)
  have he : (Parser.expr ⟨lexAt cs 1, .plus⟩).val =
      .ok (some (.binOp none .plus (some (.num 2))), ⟨lexAt cs 2, .eof⟩) := by
    rw [expr_ok _ _ _ ht0,
      expr_loop_plus ⟨lexAt cs 1, .plus⟩ none ⟨lexAt cs 2, .int 2⟩
        (some (.num 2)) ⟨lexAt cs 2, .eof⟩ rfl
        (eat_ok (lexAt cs 1) .plus .plus (.int 2) (lexAt cs 2) rfl t1) ht1]
    exact expr_loop_stop _ _ (by decide) (by decide)
  have hp : Parser.parse ⟨lexAt cs 1, .plus⟩ =
      .ok (some (.binOp none .plus (some (.num 2)))) :=
    parse_ok _ _ _ he rfl
  refine ⟨e0, hp, ?_⟩
  rw [show ("+2" : String) = ⟨cs⟩ from rfl]
  rw [evaluate_ok _ _ e0, interpret_ok _ _ hp]
  simp only [Interpreter.visit, Interpreter.visit_BinOp, Interpreter.visit_Num,
    Interpreter.generic_visit, ok_bind, error_bind, pure_eq_ok]

theorem eval_two_plus_rparen : evaluate "2+)" = .error .parsing := by
  set cs : List Char := ['2', '+', ')'] with hcsdef
  have t0 : Lexer.get_next_token (lexAt cs 0) = .ok (.int 2, lexAt cs 1) := by
    have h := gnt_digit cs 0 '2' rfl (by decide)
    rw [digitRun_eq] at h
    exact h
  have t1 : Lexer.get_next_token (lexAt cs 1) = .ok (.plus, lexAt cs 2) :=
    gnt_plus cs 1 rfl
  have t2 : Lexer.get_next_token (lexAt cs 2) = .ok (.rparen, lexAt cs 3) :=
    gnt_rparen cs 2 rfl
  have e0 : Parser.init (Lexer.init cs) = .ok ⟨lexAt cs 1, .int 2⟩ := by
    rw [init_eq_lexAt]
    exact init_ok _ _ _ t0
  have hf0 : (Parser.factor ⟨lexAt cs 1, .int 2⟩).val =
      .ok (some (.num 2), ⟨lexAt cs 2, .plus⟩) :=
    factor_int _ _ _ (eat_ok _ _ _ _ _ rfl t1)
  have ht0 : (Parser.term ⟨lexAt cs 1, .int 2⟩).val =
      .ok (some (.num 2), ⟨lexAt cs 2, .plus⟩) := by
    rw [term_ok _ _ _ hf0]
    exact term_loop_stop _ _ (by decide) (by decide)
  have hf1 : (Parser.factor ⟨lexAt cs 3, .rparen⟩).val =
      .ok (none, ⟨lexAt cs 3, .rparen⟩) :=
    factor_other _ _ (by intro n h; cases h) (by intro h; cases h)
  have ht1 : (Parser.term ⟨lexAt cs 3, .rparen⟩).val =
      .ok (none, ⟨lexAt cs 3, .rparen⟩) := by
    rw [term_ok _ _ _ hf1]
    exact term_loop_stop _ _ (by decide) (by decide)
  have he : (Parser.expr ⟨lexAt cs 1, .int 2⟩).val =
      .ok (some (.binOp (some (.num 2)) .plus none), ⟨lexAt cs 3, .rparen⟩) := by
    rw [expr_ok _ _ _ ht0,
      expr_loop_plus ⟨lexAt cs 2, .plus⟩ (some (.num 2)) ⟨lexAt cs 3, .rparen⟩
        none ⟨lexAt cs 3, .rparen⟩ rfl
        (eat_ok (lexAt cs 2) .plus .plus (.rparen) (lexAt cs 3) rfl t2) ht1]
    exact expr_loop_stop _ _ (by decide) (by decide)
  have hp : Parser.parse ⟨lexAt cs 1, .int 2⟩ = .error .parsing :=
    parse_trailing _ _ _ he (by decide)
  rw [show ("2+)" : String) = ⟨cs⟩ from rfl]
  rw [evaluate_ok _ _ e0, interpret_err _ _ hp]

theorem unit_div_zero_pipeline :
    Parser.parse ⟨lexAt "()/0".data 1, .lparen⟩ =
      .ok (some (.binOp none .div (some (.num 0)))) ∧
    evaluate "()/0" = .error .divisionByZero := by
  set cs : List Char := ['(', ')', '/', '0'] with hcsdef
  have t0 : Lexer.get_next_token (lexAt cs 0) = .ok (.lparen, lexAt cs 1) :=
    gnt_lparen cs 0 rfl
  have t1 : Lexer.get_next_token (lexAt cs 1) = .ok (.rparen, lexAt cs 2) :=
    gnt_rparen cs 1 rfl
  have t2 : Lexer.get_next_token (lexAt cs 2) = .ok (.div, lexAt cs 3) :=
    gnt_div cs 2 rfl
  have t3 : Lexer.get_next_token (lexAt cs 3) = .ok (.int 0, lexAt cs 4) := by
    have h := gnt_digit cs 3 '0' rfl (by decide)
    rw [digitRun_eq] at h
    exact h
  have t4 : Lexer.get_next_token (lexAt cs 4) = .ok (.eof, lexAt cs 4) :=
    gnt_eof cs 4 rfl
  have e0 : Parser.init (Lexer.init cs) = .ok ⟨lexAt cs 1, .lparen⟩ := by
    rw [init_eq_lexAt]
    exact init_ok _ _ _ t0
  have hfi : (Parser.factor ⟨lexAt cs 2, .rparen⟩).val =
      .ok (none, ⟨lexAt cs 2, .rparen⟩) :=
    factor_other _ _ (by intro n h; cases h) (by intro h; cases h)
  have hti : (Parser.term ⟨lexAt cs 2, .rparen⟩).val =
      .ok (none, ⟨lexAt cs 2, .rparen⟩) := by
    rw [term_ok _ _ _ hfi]
    exact term_loop_stop _ _ (by decide) (by decide)
  have hei : (Parser.expr ⟨lexAt cs 2, .rparen⟩).val =
      .ok (none, ⟨lexAt cs 2, .rparen⟩) := by
    rw [expr_ok _ _ _ hti]
    exact expr_loop_stop _ _ (by decide) (by decide)
  have hf0 : (Parser.factor ⟨lexAt cs 1, .lparen⟩).val =
      .ok (none, ⟨lexAt cs 3, .div⟩) :=
    factor_paren _ _ _ _ _ (eat_ok _ _ _ _ _ rfl t1) hei
      (eat_ok _ _ _ _ _ rfl t2)
  have hf1 : (Parser.factor ⟨lexAt cs 4, .int 0⟩).val =
      .ok (some (.num 0), ⟨lexAt cs 4, .eof⟩) :=
    factor_int _ _ _ (eat_ok _ _ _ _ _ rfl t4)
  have ht0 : (Parser.term ⟨lexAt cs 1, .lparen⟩).val =
      .ok (some (.binOp none .div (some (.num 0))), ⟨lexAt cs 4, .eof⟩) := by
    rw [term_ok _ _ _ hf0,
      term_loop_div ⟨lexAt cs 3, .div⟩ none ⟨lexAt cs 4, .int 0⟩
        (some (.num 0)) ⟨lexAt cs 4, .eof⟩ rfl
        (eat_ok (lexAt cs 3) .div .div (.int 0) (lexAt cs 4) rfl t3) hf1]
    exact term_loop_stop _ _ (by decide) (by decide)
  have he : (Parser.expr ⟨lexAt cs 1, .lparen⟩).val =
      .ok (some (.binOp none .div (some (.num 0))), ⟨lexAt cs 4, .eof⟩) := by
    rw [expr_ok _ _ _ ht0]
    exact expr_loop_stop _ _ (by decide) (by decide)
  have hp : Parser.parse ⟨lexAt cs 1, .lparen⟩ =
      .ok (some (.binOp none .div (some (.num 0)))) :=
    parse_ok _ _ _ he rfl
  refine ⟨hp, ?_⟩
  rw [show ("()/0" : String) = ⟨cs⟩ from rfl]
  rw [evaluate_ok _ _ e0, interpret_ok _ _ hp]
  simp only [Interpreter.visit, Interpreter.visit_BinOp, Interpreter.visit_Num,
    Interpreter.generic_visit, ok_bind, error_bind, pure_eq_ok]
  norm_num

theorem empty_pipeline :
    Parser.init (Lexer.init "".data) = .ok ⟨lexAt [] 0, .eof⟩ ∧
    Parser.parse ⟨lexAt [] 0, .eof⟩ = .ok none ∧
    evaluate "" = .error .internal := by
  have t0 : Lexer.get_next_token (lexAt [] 0) = .ok (.eof, lexAt [] 0) :=
    gnt_eof [] 0 rfl
  have e0 : Parser.init (Lexer.init []) = .ok ⟨lexAt [] 0, .eof⟩ := by
    rw [init_eq_lexAt]
    exact init_ok _ _ _ t0
  have hf0 : (Parser.factor ⟨lexAt [] 0, .eof⟩).val =
      .ok (none, ⟨lexAt [] 0, .eof⟩) :=
    factor_other _ _ (by intro n h; cases h) (by intro h; cases h)
  have ht0 : (Parser.term ⟨lexAt [] 0, .eof⟩).val =
      .ok (none, ⟨lexAt [] 0, .eof⟩) := by
    rw [term_ok _ _ _ hf0]
    exact term_loop_stop _ _ (by decide) (by decide)
  have he : (Parser.expr ⟨lexAt [] 0, .eof⟩).val =
      .ok (none, ⟨lexAt [] 0, .eof⟩) := by
    rw [expr_ok _ _ _ ht0]
    exact expr_loop_stop _ _ (by decide) (by decide)
  have hp : Parser.parse ⟨lexAt [] 0, .eof⟩ = .ok none :=
    parse_ok _ _ _ he rfl
  refine ⟨e0, hp, ?_⟩
  rw [show ("" : String) = ⟨[]⟩ from rfl]
  rw [evaluate_ok _ _ e0, interpret_ok _ _ hp]
  simp only [Interpreter.visit, Interpreter.generic_visit]

theorem eval_spaces : evaluate "   " = .error .internal := by
  set cs : List Char := [' ', ' ', ' '] with hcsdef
  have t0 : Lexer.get_next_token (lexAt cs 0) = .ok (.eof, lexAt cs 3) := by
    rw [gnt_ws cs 0 ' ' rfl (by decide),
      skip_whitespace_step cs 0 ' ' rfl (by decide),
      skip_whitespace_step cs 1 ' ' rfl (by decide),
      skip_whitespace_step cs 2 ' ' rfl (by decide),
      skip_whitespace_stop cs 3 (by intro c hc; cases hc)]
    exact gnt_eof cs 3 rfl
  have e0 : Parser.init (Lexer.init cs) = .ok ⟨lexAt cs 3, .eof⟩ := by
    rw [init_eq_lexAt]
    exact init_ok _ _ _ t0
  have hf0 : (Parser.factor ⟨lexAt cs 3, .eof⟩).val =
      .ok (none, ⟨lexAt cs 3, .eof⟩) :=
    factor_other _ _ (by intro n h; cases h) (by intro h; cases h)
  have ht0 : (Parser.term ⟨lexAt cs 3, .eof⟩).val =
      .ok (none, ⟨lexAt cs 3, .eof⟩) := by
    rw [term_ok _ _ _ hf0]
    exact term_loop_stop _ _ (by decide) (by decide)
  have he : (Parser.expr ⟨lexAt cs 3, .eof⟩).val =
      .ok (none, ⟨lexAt cs 3, .eof⟩) := by
    rw [expr_ok _ _ _ ht0]
    exact expr_loop_stop _ _ (by decide) (by decide)
  have hp : Parser.parse ⟨lexAt cs 3, .eof⟩ = .ok none :=
    parse_ok _ _ _ he rfl
  rw [show ("   " : String) = ⟨cs⟩ from rfl]
  rw [evaluate_ok _ _ e0, interpret_ok _ _ hp]
  simp only [Interpreter.visit, Interpreter.generic_visit]

/-! ### Decimal numerals (`Nat.repr`) -/

/-- The big-endian decimal digit characters of `n`; shown below to be
exactly `(Nat.repr n).data`. -/
def numeralAux (n : ℕ) : List Char :=
  if n < 10 then [Nat.digitChar n]
  else numeralAux (n / 10) ++ [Nat.digitChar (n % 10)]
termination_by n
decreasing_by exact Nat.div_lt_self (by omega) (by omega)

theorem toDigitsCore_eq (f : ℕ) : ∀ (n : ℕ) (ds : List Char), n < f →
    Nat.toDigitsCore 10 f n ds = numeralAux n ++ ds := by
  induction f with
  | zero => intro n ds h; omega
  | succ f ih =>
    intro n ds h
    rw [Nat.toDigitsCore]
    by_cases h10 : n / 10 = 0
    · have hn : n < 10 := by omega
      rw [if_pos h10, numeralAux, if_pos hn, Nat.mod_eq_of_lt hn]
      rfl
    · have hn : ¬ n < 10 := by omega
      rw [if_neg h10, ih (n / 10) _ (by omega)]
      conv_rhs => rw [numeralAux]
      rw [if_neg hn]
      simp

theorem repr_data (n : ℕ) : (Nat.repr n).data = numeralAux n := by
  unfold Nat.repr Nat.toDigits
  rw [toDigitsCore_eq (n + 1) n [] (by omega)]
  simp [List.asString]

theorem digitChar_isDigit (d : ℕ) (h : d < 10) : (Nat.digitChar d).isDigit := by
  interval_cases d <;> decide

theorem digitChar_toNat (d : ℕ) (h : d < 10) : (Nat.digitChar d).toNat - 48 = d := by
  interval_cases d <;> decide

theorem numeralAux_digits (n : ℕ) : ∀ c ∈ numeralAux n, c.isDigit := by
  induction n using Nat.strong_induction_on with
  | _ n ih =>
    rw [numeralAux]
    by_cases hn : n < 10
    · rw [if_pos hn]
      intro c hc
      rw [List.mem_singleton] at hc
      subst hc
      exact digitChar_isDigit n hn
    · rw [if_neg hn]
      intro c hc
      rw [List.mem_append] at hc
      rcases hc with hc | hc
      · exact ih (n / 10) (Nat.div_lt_self (by omega) (by omega)) c hc
      · rw [List.mem_singleton] at hc
        subst hc
        exact digitChar_isDigit _ (Nat.mod_lt n (by omega))

theorem numeralAux_ne_nil (n : ℕ) : numeralAux n ≠ [] := by
  rw [numeralAux]
  by_cases hn : n < 10
  · rw [if_pos hn]
    simp
  · rw [if_neg hn]
    simp

theorem digitsVal_append (xs : List Char) (c : Char) :
    digitsVal (xs ++ [c]) = 10 * digitsVal xs + (c.toNat - 48) := by
  unfold digitsVal
  rw [List.foldl_append]
  rfl

theorem digitsVal_numeralAux (n : ℕ) : digitsVal (numeralAux n) = n := by
  induction n using Nat.strong_induction_on with
  | _ n ih =>
    rw [numeralAux]
    by_cases hn : n < 10
    · rw [if_pos hn]
      show 10 * 0 + ((Nat.digitChar n).toNat - 48) = n
      rw [digitChar_toNat n hn]
      omega
    · rw [if_neg hn, digitsVal_append,
        ih (n / 10) (Nat.div_lt_self (by omega) (by omega)),
        digitChar_toNat _ (Nat.mod_lt n (by omega))]
      omega

theorem takeWhile_digits (ds suf : List Char)
    (hds : ∀ c ∈ ds, c.isDigit)
    (hsuf : ∀ c, suf.head? = some c → ¬ c.isDigit) :
    (ds ++ suf).takeWhile Char.isDigit = ds := by
  induction ds with
  | nil =>
    rw [List.nil_append]
    cases suf with
    | nil => rfl
    | cons c cs =>
      rw [List.takeWhile_cons, if_neg]
      simpa using hsuf c rfl
  | cons c cs ih =>
    rw [List.cons_append, List.takeWhile_cons,
      if_pos (hds c (List.mem_cons_self c cs))]
    rw [ih (fun x hx => hds x (List.mem_cons_of_mem c hx))]

theorem numeral_tok_first (a : ℕ) (rest : List Char)
    (hrest : ∀ c, rest.head? = some c → ¬ c.isDigit) :
    Lexer.get_next_token (lexAt (numeralAux a ++ rest) 0) =
      .ok (.int a, lexAt (numeralAux a ++ rest) (numeralAux a).length) := by
  obtain ⟨c, cs', hsplit⟩ := List.exists_cons_of_ne_nil (numeralAux_ne_nil a)
  have hc0 : (numeralAux a ++ rest)[0]? = some c := by
    rw [hsplit]
    simp
  have hcd : c.isDigit := numeralAux_digits a c (by rw [hsplit]; exact List.mem_cons_self _ _)
  have hrun : digitRun (numeralAux a ++ rest) 0 = numeralAux a := by
    rw [digitRun_eq, List.drop_zero, takeWhile_digits _ _ (numeralAux_digits a) hrest]
  have h := gnt_digit (numeralAux a ++ rest) 0 c hc0 hcd
  rw [hrun, digitsVal_numeralAux] at h
  rw [h]
  norm_num

theorem numeral_tok_at (pre : List Char) (b : ℕ) :
    Lexer.get_next_token (lexAt (pre ++ numeralAux b) pre.length) =
      .ok (.int b, lexAt (pre ++ numeralAux b)
            (pre.length + (numeralAux b).length)) := by
  obtain ⟨c, cs', hsplit⟩ := List.exists_cons_of_ne_nil (numeralAux_ne_nil b)
  have hc0 : (pre ++ numeralAux b)[pre.length]? = some c := by
    rw [List.getElem?_append_right (le_refl _), Nat.sub_self, hsplit]
    simp
  have hcd : c.isDigit := numeralAux_digits b c (by rw [hsplit]; exact List.mem_cons_self _ _)
  have hrun : digitRun (pre ++ numeralAux b) pre.length = numeralAux b := by
    rw [digitRun_eq, List.drop_left]
    have h := takeWhile_digits (numeralAux b) [] (numeralAux_digits b)
      (by intro c hc; cases hc)
    rw [List.append_nil] at h
    exact h
  have h := gnt_digit (pre ++ numeralAux b) pre.length c hc0 hcd
  rw [hrun, digitsVal_numeralAux] at h
  exact h

theorem numeral_binop_tokens (a b : ℕ) (oc : Char)
    (hocd : ¬ oc.isDigit) :
    Lexer.get_next_token (lexAt (numeralAux a ++ oc :: numeralAux b) 0) =
      .ok (.int a, lexAt (numeralAux a ++ oc :: numeralAux b)
            (numeralAux a).length) ∧
    (numeralAux a ++ oc :: numeralAux b)[(numeralAux a).length]? = some oc ∧
    Lexer.get_next_token
        (lexAt (numeralAux a ++ oc :: numeralAux b) ((numeralAux a).length + 1)) =
      .ok (.int b, lexAt (numeralAux a ++ oc :: numeralAux b)
            ((numeralAux a).length + 1 + (numeralAux b).length)) ∧
    Lexer.get_next_token
        (lexAt (numeralAux a ++ oc :: numeralAux b)
          ((numeralAux a).length + 1 + (numeralAux b).length)) =
      .ok (.eof, lexAt (numeralAux a ++ oc :: numeralAux b)
            ((numeralAux a).length + 1 + (numeralAux b).length)) := by
  refine ⟨?_, ?_, ?_, ?_⟩
  · exact numeral_tok_first a (oc :: numeralAux b)
      (by intro c hc; injection hc with hc; subst hc; exact hocd)
  · rw [List.getElem?_append_right (le_refl _), Nat.sub_self]
    simp
  · have hTpre : (numeralAux a ++ [oc]) ++ numeralAux b =
        numeralAux a ++ oc :: numeralAux b := by
      simp
    have hprelen : (numeralAux a ++ [oc]).length = (numeralAux a).length + 1 := by
      simp
    have h := numeral_tok_at (numeralAux a ++ [oc]) b
    rw [hTpre, hprelen] at h
    exact h
  · apply gnt_eof
    apply List.getElem?_eq_none
    simp
    omega

theorem eval_add_numerals (a b : ℕ) :
    evaluate ⟨numeralAux a ++ '+' :: numeralAux b⟩ = .ok ((a : ℚ) + (b : ℚ)) := by
  obtain ⟨t0, hpa, t2, t3⟩ := numeral_binop_tokens a b '+' (by decide)
  set T : List Char := numeralAux a ++ '+' :: numeralAux b with hT
  set pa := (numeralAux a).length with hpadef
  set pb := pa + 1 + (numeralAux b).length with hpbdef
  have t1 : Lexer.get_next_token (lexAt T pa) = .ok (.plus, lexAt T (pa + 1)) :=
    gnt_plus T pa hpa
  have e0 : Parser.init (Lexer.init T) = .ok ⟨lexAt T pa, .int a⟩ := by
    rw [init_eq_lexAt]
    exact init_ok _ _ _ t0
  have hf0 : (Parser.factor ⟨lexAt T pa, .int a⟩).val =
      .ok (some (.num a), ⟨lexAt T (pa + 1), .plus⟩) :=
    factor_int _ _ _ (eat_ok _ _ _ _ _ rfl t1)
  have ht0 : (Parser.term ⟨lexAt T pa, .int a⟩).val =
      .ok (some (.num a), ⟨lexAt T (pa + 1), .plus⟩) := by
    rw [term_ok _ _ _ hf0]
    exact term_loop_stop _ _ (fun h => nomatch h) (fun h => nomatch h)
  have hf1 : (Parser.factor ⟨lexAt T pb, .int b⟩).val =
      .ok (some (.num b), ⟨lexAt T pb, .eof⟩) :=
    factor_int _ _ _ (eat_ok _ _ _ _ _ rfl t3)
  have ht1 : (Parser.term ⟨lexAt T pb, .int b⟩).val =
      .ok (some (.num b), ⟨lexAt T pb, .eof⟩) := by
    rw [term_ok _ _ _ hf1]
    exact term_loop_stop _ _ (fun h => nomatch h) (fun h => nomatch h)
  have he : (Parser.expr ⟨lexAt T pa, .int a⟩).val =
      .ok (some (.binOp (some (.num a)) .plus (some (.num b))),
           ⟨lexAt T pb, .eof⟩) := by
    rw [expr_ok _ _ _ ht0,
      expr_loop_plus ⟨lexAt T (pa + 1), .plus⟩ (some (.num a)) ⟨lexAt T pb, .int b⟩
        (some (.num b)) ⟨lexAt T pb, .eof⟩ rfl
        (eat_ok (lexAt T (pa + 1)) .plus .plus (.int b) (lexAt T pb) rfl t2) ht1]
    exact expr_loop_stop _ _ (fun h => nomatch h) (fun h => nomatch h)
  have hp : Parser.parse ⟨lexAt T pa, .int a⟩ =
      .ok (some (.binOp (some (.num a)) .plus (some (.num b)))) :=
    parse_ok _ _ _ he rfl
  rw [evaluate_ok _ _ e0, interpret_ok _ _ hp]
  simp only [Interpreter.visit, Interpreter.visit_BinOp, Interpreter.visit_Num,
    ok_bind, pure_eq_ok]

theorem eval_sub_numerals (a b : ℕ) :
    evaluate ⟨numeralAux a ++ '-' :: numeralAux b⟩ = .ok ((a : ℚ) - (b : ℚ)) := by
  obtain ⟨t0, hpa, t2, t3⟩ := numeral_binop_tokens a b '-' (by decide)
  set T : List Char := numeralAux a ++ '-' :: numeralAux b with hT
  set pa := (numeralAux a).length with hpadef
  set pb := pa + 1 + (numeralAux b).length with hpbdef
  have t1 : Lexer.get_next_token (lexAt T pa) = .ok (.minus, lexAt T (pa + 1)) :=
    gnt_minus T pa hpa
  have e0 : Parser.init (Lexer.init T) = .ok ⟨lexAt T pa, .int a⟩ := by
    rw [init_eq_lexAt]
    exact init_ok _ _ _ t0
  have hf0 : (Parser.factor ⟨lexAt T pa, .int a⟩).val =
      .ok (some (.num a), ⟨lexAt T (pa + 1), .minus⟩) :=
    factor_int _ _ _ (eat_ok _ _ _ _ _ rfl t1)
  have ht0 : (Parser.term ⟨lexAt T pa, .int a⟩).val =
      .ok (some (.num a), ⟨lexAt T (pa + 1), .minus⟩) := by
    rw [term_ok _ _ _ hf0]
    exact term_loop_stop _ _ (fun h => nomatch h) (fun h => nomatch h)
  have hf1 : (Parser.factor ⟨lexAt T pb, .int b⟩).val =
      .ok (some (.num b), ⟨lexAt T pb, .eof⟩) :=
    factor_int _ _ _ (eat_ok _ _ _ _ _ rfl t3)
  have ht1 : (Parser.term ⟨lexAt T pb, .int b⟩).val =
      .ok (some (.num b), ⟨lexAt T pb, .eof⟩) := by
    rw [term_ok _ _ _ hf1]
    exact term_loop_stop _ _ (fun h => nomatch h) (fun h => nomatch h)
  have he : (Parser.expr ⟨lexAt T pa, .int a⟩).val =
      .ok (some (.binOp (some (.num a)) .minus (some (.num b))),
           ⟨lexAt T pb, .eof⟩) := by
    rw [expr_ok _ _ _ ht0,
      expr_loop_minus ⟨lexAt T (pa + 1), .minus⟩ (some (.num a)) ⟨lexAt T pb, .int b⟩
        (some (.num b)) ⟨lexAt T pb, .eof⟩ rfl
        (eat_ok (lexAt T (pa + 1)) .minus .minus (.int b) (lexAt T pb) rfl t2) ht1]
    exact expr_loop_stop _ _ (fun h => nomatch h) (fun h => nomatch h)
  have hp : Parser.parse ⟨lexAt T pa, .int a⟩ =
      .ok (some (.binOp (some (.num a)) .minus (some (.num b)))) :=
    parse_ok _ _ _ he rfl
  rw [evaluate_ok _ _ e0, interpret_ok _ _ hp]
  simp only [Interpreter.visit, Interpreter.visit_BinOp, Interpreter.visit_Num,
    ok_bind, pure_eq_ok]

theorem eval_mul_numerals (a b : ℕ) :
    evaluate ⟨numeralAux a ++ '*' :: numeralAux b⟩ = .ok ((a : ℚ) * (b : ℚ)) := by
  obtain ⟨t0, hpa, t2, t3⟩ := numeral_binop_tokens a b '*' (by decide)
  set T : List Char := numeralAux a ++ '*' :: numeralAux b with hT
  set pa := (numeralAux a).length with hpadef
  set pb := pa + 1 + (numeralAux b).length with hpbdef
  have t1 : Lexer.get_next_token (lexAt T pa) = .ok (.mul, lexAt T (pa + 1)) :=
    gnt_mul T pa hpa
  have e0 : Parser.init (Lexer.init T) = .ok ⟨lexAt T pa, .int a⟩ := by
    rw [init_eq_lexAt]
    exact init_ok _ _ _ t0
  have hf0 : (Parser.factor ⟨lexAt T pa, .int a⟩).val =
      .ok (some (.num a), ⟨lexAt T (pa + 1), .mul⟩) :=
    factor_int _ _ _ (eat_ok _ _ _ _ _ rfl t1)
  have hf1 : (Parser.factor ⟨lexAt T pb, .int b⟩).val =
      .ok (some (.num b), ⟨lexAt T pb, .eof⟩) :=
    factor_int _ _ _ (eat_ok _ _ _ _ _ rfl t3)
  have ht0 : (Parser.term ⟨lexAt T pa, .int a⟩).val =
      .ok (some (.binOp (some (.num a)) .mul (some (.num b))),
           ⟨lexAt T pb, .eof⟩) := by
    rw [term_ok _ _ _ hf0,
      term_loop_mul ⟨lexAt T (pa + 1), .mul⟩ (some (.num a)) ⟨lexAt T pb, .int b⟩
        (some (.num b)) ⟨lexAt T pb, .eof⟩ rfl
        (eat_ok (lexAt T (pa + 1)) .mul .mul (.int b) (lexAt T pb) rfl t2) hf1]
    exact term_loop_stop _ _ (fun h => nomatch h) (fun h => nomatch h)
  have he : (Parser.expr ⟨lexAt T pa, .int a⟩).val =
      .ok (some (.binOp (some (.num a)) .mul (some (.num b))),
           ⟨lexAt T pb, .eof⟩) := by
    rw [expr_ok _ _ _ ht0]
    exact expr_loop_stop _ _ (fun h => nomatch h) (fun h => nomatch h)
  have hp : Parser.parse ⟨lexAt T pa, .int a⟩ =
      .ok (some (.binOp (some (.num a)) .mul (some (.num b)))) :=
    parse_ok _ _ _ he rfl
  rw [evaluate_ok _ _ e0, interpret_ok _ _ hp]
  simp only [Interpreter.visit, Interpreter.visit_BinOp, Interpreter.visit_Num,
    ok_bind, pure_eq_ok]

theorem eval_div_numerals (a b : ℕ) (hb : b ≠ 0) :
    evaluate ⟨numeralAux a ++ '/' :: numeralAux b⟩ = .ok ((a : ℚ) / (b : ℚ)) := by
  obtain ⟨t0, hpa, t2, t3⟩ := numeral_binop_tokens a b '/' (by decide)
  set T : List Char := numeralAux a ++ '/' :: numeralAux b with hT
  set pa := (numeralAux a).length with hpadef
  set pb := pa + 1 + (numeralAux b).length with hpbdef
  have t1 : Lexer.get_next_token (lexAt T pa) = .ok (.div, lexAt T (pa + 1)) :=
    gnt_div T pa hpa
  have e0 : Parser.init (Lexer.init T) = .ok ⟨lexAt T pa, .int a⟩ := by
    rw [init_eq_lexAt]
    exact init_ok _ _ _ t0
  have hf0 : (Parser.factor ⟨lexAt T pa, .int a⟩).val =
      .ok (some (.num a), ⟨lexAt T (pa + 1), .div⟩) :=
    factor_int _ _ _ (eat_ok _ _ _ _ _ rfl t1)
  have hf1 : (Parser.factor ⟨lexAt T pb, .int b⟩).val =
      .ok (some (.num b), ⟨lexAt T pb, .eof⟩) :=
    factor_int _ _ _ (eat_ok _ _ _ _ _ rfl t3)
  have ht0 : (Parser.term ⟨lexAt T pa, .int a⟩).val =
      .ok (some (.binOp (some (.num a)) .div (some (.num b))),
           ⟨lexAt T pb, .eof⟩) := by
    rw [term_ok _ _ _ hf0,
      term_loop_div ⟨lexAt T (pa + 1), .div⟩ (some (.num a)) ⟨lexAt T pb, .int b⟩
        (some (.num b)) ⟨lexAt T pb, .eof⟩ rfl
        (eat_ok (lexAt T (pa + 1)) .div .div (.int b) (lexAt T pb) rfl t2) hf1]
    exact term_loop_stop _ _ (fun h => nomatch h) (fun h => nomatch h)
  have he : (Parser.expr ⟨lexAt T pa, .int a⟩).val =
      .ok (some (.binOp (some (.num a)) .div (some (.num b))),
           ⟨lexAt T pb, .eof⟩) := by
    rw [expr_ok _ _ _ ht0]
    exact expr_loop_stop _ _ (fun h => nomatch h) (fun h => nomatch h)
  have hp : Parser.parse ⟨lexAt T pa, .int a⟩ =
      .ok (some (.binOp (some (.num a)) .div (some (.num b)))) :=
    parse_ok _ _ _ he rfl
  rw [evaluate_ok _ _ e0, interpret_ok _ _ hp]
  simp only [Interpreter.visit, Interpreter.visit_BinOp, Interpreter.visit_Num,
    ok_bind, pure_eq_ok]
  rw [if_neg (by exact_mod_cast hb)]

theorem gnt_eof_general (l : Lexer) (h : l.current_char = none) :
    l.get_next_token = .ok (.eof, l) := by
  rw [Lexer.get_next_token]
  split
  · rename_i c hc
    rw [h] at hc
    exact absurd hc (by simp)
  · rfl

theorem gnt_bad_char (l : Lexer) (c : Char) (hc : l.current_char = some c)
    (hw : ¬ c.isWhitespace) (hd : ¬ c.isDigit)
    (h1 : c ≠ '+') (h2 : c ≠ '-') (h3 : c ≠ '*') (h4 : c ≠ '/')
    (h5 : c ≠ '(') (h6 : c ≠ ')') :
    l.get_next_token = .error (.lexical c) := by
  rw [Lexer.get_next_token]
  split
  · rename_i c2 hq
    rw [hc] at hq
    injection hq with hq
    subst hq
    rw [dif_neg (by simp [hw]), if_neg (by simp [hd]), if_neg h1, if_neg h2,
      if_neg h3, if_neg h4, if_neg h5, if_neg h6]
  · rename_i hq
    rw [hc] at hq
    exact absurd hq (by simp)

theorem gnt_error_inv (l : Lexer) (e : Err) (h : l.get_next_token = .error e) :
    ∃ c, e = .lexical c ∧ ¬ c.isWhitespace ∧ ¬ c.isDigit ∧
      c ≠ '+' ∧ c ≠ '-' ∧ c ≠ '*' ∧ c ≠ '/' ∧ c ≠ '(' ∧ c ≠ ')' := by
  rw [Lexer.get_next_token] at h
  split at h
  · rename_i c hc
    split at h
    · exact gnt_error_inv l.skip_whitespace e h
    · rename_i hw
      split at h
      · cases h
      · rename_i hd
        split at h
        · cases h
        · rename_i h1
          split at h
          · cases h
          · rename_i h2
            split at h
            · cases h
            · rename_i h3
              split at h
              · cases h
              · rename_i h4
                split at h
                · cases h
                · rename_i h5
                  split at h
                  · cases h
                  · rename_i h6
                    injection h with h
                    exact ⟨c, h.symm, hw, hd, h1, h2, h3, h4, h5, h6⟩
  · cases h
termination_by muL l
decreasing_by exact muL_skip_whitespace_lt _ _ (by assumption) (by assumption)

theorem visit_div_zero (l r : Option AST) (h : Interpreter.visit r = .ok 0) :
    Interpreter.visit (some (.binOp l .div r)) = .error .divisionByZero := by
  simp only [Interpreter.visit, Interpreter.visit_BinOp, h, ok_bind, if_pos]

theorem visit_div_err (l r : Option AST) (e : Err)
    (h : Interpreter.visit r = .error e) :
    Interpreter.visit (some (.binOp l .div r)) = .error e := by
  simp only [Interpreter.visit, Interpreter.visit_BinOp, h, error_bind]

theorem visit_div_nonzero (l r : Option AST) (v w : ℚ)
    (hr : Interpreter.visit r = .ok v) (hv : v ≠ 0)
    (hl : Interpreter.visit l = .ok w) :
    Interpreter.visit (some (.binOp l .div r)) = .ok (w / v) := by
  simp only [Interpreter.visit, Interpreter.visit_BinOp, hr, hl, ok_bind,
    if_neg hv, pure_eq_ok]

/-! ### The evaluation order claimed by the spec for division

Modelled from the spec: §9 claims "the original left operand of a BinOp is
evaluated before checking whether the right operand is zero".  The
definitions below are the interpreter with exactly that order on division
nodes (left operand first, then the right operand and the zero check); all
other cases are unchanged.  The real `Interpreter.visit` above follows the
code, which evaluates the right operand first on division nodes. -/

mutual

def visitLeftFirst : Option AST → Except Err ℚ
  | some (.num v) => Interpreter.visit_Num v
  | some (.binOp l op r) => visitLeftFirst_BinOp l op r
  | none => Interpreter.generic_visit
termination_by node => sizeOf node
decreasing_by all_goals (simp_wf; omega)

def visitLeftFirst_BinOp (l : Option AST) (op : Op) (r : Option AST) :
    Except Err ℚ :=
  match op with
  | .plus => do
      let a ← visitLeftFirst l
      let b ← visitLeftFirst r
      pure (a + b)
  | .minus => do
      let a ← visitLeftFirst l
      let b ← visitLeftFirst r
      pure (a - b)
  | .mul => do
      let a ← visitLeftFirst l
      let b ← visitLeftFirst r
      pure (a * b)
  | .div => do
      let left_val ← visitLeftFirst l
      let right_val ← visitLeftFirst r
      if right_val = 0 then
        .error .divisionByZero
      else
        pure (left_val / right_val)
termination_by sizeOf l + sizeOf r + 1
decreasing_by all_goals (simp_wf; omega)

end

theorem visitLeftFirst_order_witness :
    Interpreter.visit (some (.binOp none .div (some (.num 0)))) =
      .error .divisionByZero ∧
    visitLeftFirst (some (.binOp none .div (some (.num 0)))) =
      .error .internal := by
  constructor
  · simp only [Interpreter.visit, Interpreter.visit_BinOp, Interpreter.visit_Num,
      Interpreter.generic_visit, ok_bind, error_bind]
    norm_num
  · simp only [visitLeftFirst, visitLeftFirst_BinOp, Interpreter.visit_Num,
      Interpreter.generic_visit, ok_bind, error_bind]

/-! ### The lexer cursor invariant -/

/-- The cursor invariant of §3: the cached current character is exactly the
character at `pos` (`none` when `pos` is at the end), and `pos` stays within
`[0, length]`. -/
def LexWF (l : Lexer) : Prop :=
  l.current_char = l.text[l.pos]? ∧ l.pos ≤ l.text.length

theorem lexWF_eq_lexAt (l : Lexer) (h : LexWF l) : l = lexAt l.text l.pos := by
  obtain ⟨h1, _⟩ := h
  cases l
  simp only [lexAt] at *
  rw [h1]

theorem getElem?_some_lt {cs : List Char} {p : ℕ} {c : Char}
    (h : cs[p]? = some c) : p < cs.length := by
  by_contra hn
  rw [List.getElem?_eq_none (by omega)] at h
  cases h

theorem skip_whitespace_pos (cs : List Char) (p : ℕ) (hp : p ≤ cs.length) :
    ∃ p2, (lexAt cs p).skip_whitespace = lexAt cs p2 ∧ p ≤ p2 ∧
      p2 ≤ cs.length := by
  rcases hc : cs[p]? with _ | c
  · rw [skip_whitespace_stop cs p (by intro c h; rw [hc] at h; cases h)]
    exact ⟨p, rfl, le_refl _, hp⟩
  · have hplt : p < cs.length := getElem?_some_lt hc
    by_cases hw : c.isWhitespace
    · rw [skip_whitespace_step cs p c hc hw]
      obtain ⟨p2, h1, h2, h3⟩ := skip_whitespace_pos cs (p + 1) hplt
      exact ⟨p2, h1, by omega, h3⟩
    · rw [skip_whitespace_stop cs p
        (by intro c2 h2; rw [hc] at h2; injection h2 with h2; subst h2; exact hw)]
      exact ⟨p, rfl, le_refl _, hp⟩
termination_by cs.length - p
decreasing_by
  have := getElem?_some_lt hc
  omega

theorem digitRun_pos_le (cs : List Char) (p : ℕ) (hp : p ≤ cs.length) :
    p + (digitRun cs p).length ≤ cs.length := by
  rw [digitRun_eq]
  have h1 := ((cs.drop p).takeWhile_sublist Char.isDigit).length_le
  rw [List.length_drop] at h1
  omega

theorem gnt_pos (cs : List Char) (p : ℕ) (t : Tok) (l' : Lexer)
    (hp : p ≤ cs.length)
    (h : Lexer.get_next_token (lexAt cs p) = .ok (t, l')) :
    ∃ p2, l' = lexAt cs p2 ∧ p ≤ p2 ∧ p2 ≤ cs.length := by
  rcases hc : cs[p]? with _ | c
  · rw [gnt_eof cs p hc] at h
    injection h with h
    injection h with h1 h2
    exact ⟨p, h2.symm, le_refl _, hp⟩
  · have hplt : p < cs.length := getElem?_some_lt hc
    by_cases hw : c.isWhitespace
    · rw [gnt_ws cs p c hc hw, skip_whitespace_step cs p c hc hw] at h
      obtain ⟨p1, hsw, hle1, hle2⟩ := skip_whitespace_pos cs (p + 1) hplt
      rw [hsw] at h
      obtain ⟨p2, h1, h2, h3⟩ := gnt_pos cs p1 t l' hle2 h
      exact ⟨p2, h1, by omega, h3⟩
    · by_cases hd : c.isDigit
      · rw [gnt_digit cs p c hc hd] at h
        injection h with h
        injection h with h1 h2
        exact ⟨p + (digitRun cs p).length, h2.symm, by omega,
          digitRun_pos_le cs p hp⟩
      · by_cases h1 : c = '+'
        · subst h1
          rw [gnt_plus cs p hc] at h
          injection h with h
          injection h with h1 h2
          exact ⟨p + 1, h2.symm, by omega, by omega⟩
        · by_cases h2 : c = '-'
          · subst h2
            rw [gnt_minus cs p hc] at h
            injection h with h
            injection h with h1 h2
            exact ⟨p + 1, h2.symm, by omega, by omega⟩
          · by_cases h3 : c = '*'
            · subst h3
              rw [gnt_mul cs p hc] at h
              injection h with h
              injection h with h1 h2
              exact ⟨p + 1, h2.symm, by omega, by omega⟩
            · by_cases h4 : c = '/'
              · subst h4
                rw [gnt_div cs p hc] at h
                injection h with h
                injection h with h1 h2
                exact ⟨p + 1, h2.symm, by omega, by omega⟩
              · by_cases h5 : c = '('
                · subst h5
                  rw [gnt_lparen cs p hc] at h
                  injection h with h
                  injection h with h1 h2
                  exact ⟨p + 1, h2.symm, by omega, by omega⟩
                · by_cases h6 : c = ')'
                  · subst h6
                    rw [gnt_rparen cs p hc] at h
                    injection h with h
                    injection h with h1 h2
                    exact ⟨p + 1, h2.symm, by omega, by omega⟩
                  · rw [gnt_other cs p c hc hw hd h1 h2 h3 h4 h5 h6] at h
                    cases h
termination_by cs.length - p
decreasing_by
  have := getElem?_some_lt hc
  omega

/-! ### Claim theorems -/

/-- C1: For all non-negative integers `a` and `b`, evaluating the source
string `"a+b"` (the decimal numerals of `a` and `b` joined by the operator
character) through the pipeline Lexer → Parser → Interpreter (`evaluate`)
returns `a+b`; `"a-b"` returns `a-b`; `"a*b"` returns `a*b`; and for
`b ≠ 0`, `"a/b"` returns `a/b` as true (non-truncating) division, modelled
in `ℚ`. -/
theorem claim_C1 (a b : ℕ) :
    evaluate (Nat.repr a ++ "+" ++ Nat.repr b) = .ok ((a : ℚ) + (b : ℚ)) ∧
    evaluate (Nat.repr a ++ "-" ++ Nat.repr b) = .ok ((a : ℚ) - (b : ℚ)) ∧
    evaluate (Nat.repr a ++ "*" ++ Nat.repr b) = .ok ((a : ℚ) * (b : ℚ)) ∧
    (b ≠ 0 →
      evaluate (Nat.repr a ++ "/" ++ Nat.repr b) = .ok ((a : ℚ) / (b : ℚ))) := by
  have key : ∀ oc : Char,
      Nat.repr a ++ ⟨[oc]⟩ ++ Nat.repr b = ⟨numeralAux a ++ oc :: numeralAux b⟩ := by
    intro oc
    apply String.ext
    rw [String.data_append, String.data_append, repr_data, repr_data]
    simp
  refine ⟨?_, ?_, ?_, fun hb => ?_⟩
  · rw [show ("+" : String) = ⟨['+']⟩ from rfl, key '+']
    exact eval_add_numerals a b
  · rw [show ("-" : String) = ⟨['-']⟩ from rfl, key '-']
    exact eval_sub_numerals a b
  · rw [show ("*" : String) = ⟨['*']⟩ from rfl, key '*']
    exact eval_mul_numerals a b
  · rw [show ("/" : String) = ⟨['/']⟩ from rfl, key '/']
    exact eval_div_numerals a b hb

/-- Witness for C1 at `a = 5`, `b = 2`. -/
theorem claim_C1_witness :
    evaluate (Nat.repr 5 ++ "+" ++ Nat.repr 2) = .ok ((5 : ℚ) + (2 : ℚ)) ∧
    evaluate (Nat.repr 5 ++ "/" ++ Nat.repr 2) = .ok ((5 : ℚ) / (2 : ℚ)) := by
  have h := claim_C1 5 2
  exact ⟨h.1, h.2.2.2 (by decide)⟩

/-- C2: precedence and left-associativity as realised by evaluation:
`2+3*4` is 14 (multiplication binds tighter), `10-2-3` is 5 (left-folded
chains of same-precedence operators), and `(2+3)*4` is 20 (parentheses
override precedence). -/
theorem claim_C2 :
    evaluate "2+3*4" = .ok 14 ∧
    evaluate "10-2-3" = .ok 5 ∧
    evaluate "(2+3)*4" = .ok 20 :=
  ⟨eval_two_plus_three_times_four, eval_ten_minus_two_minus_three,
   eval_paren_two_plus_three_times_four⟩

/-- C3: when the interpreter evaluates a division `BinOp` node whose right
operand evaluates to exactly zero, evaluation fails with the
division-by-zero error kind (for any left child, i.e. without performing
the division); the check happens only when that node is evaluated, not
earlier — in particular `"5/0"` parses successfully into the division node
and `evaluate "5/0"` fails with `DivisionByZeroError` with no partial
result. -/
theorem claim_C3 :
    (∀ l r : Option AST, Interpreter.visit r = .ok 0 →
      Interpreter.visit (some (.binOp l .div r)) = .error .divisionByZero) ∧
    Parser.parse ⟨lexAt "5/0".data 1, .int 5⟩ =
      .ok (some (.binOp (some (.num 5)) .div (some (.num 0)))) ∧
    evaluate "5/0" = .error .divisionByZero :=
  ⟨visit_div_zero, five_div_zero_pipeline.2.1, five_div_zero_pipeline.2.2⟩

/-- Witness for C3's quantified part at a concrete division node. -/
theorem claim_C3_witness :
    Interpreter.visit (some (.binOp (some (.num 1)) .div (some (.num 0)))) =
      .error .divisionByZero :=
  claim_C3.1 (some (.num 1)) (some (.num 0))
    (by simp only [Interpreter.visit, Interpreter.visit_Num, Nat.cast_zero])

/-- C4: a character that is not whitespace, not a digit, and not one of the
six recognised single-character tokens makes `get_next_token` fail with a
`LexicalError` carrying that character; conversely every `get_next_token`
error is such a `LexicalError` (no other condition raises it); and
`evaluate "2+@"` fails with `LexicalError '@'`. -/
theorem claim_C4 :
    (∀ (l : Lexer) (c : Char), l.current_char = some c →
      ¬ c.isWhitespace → ¬ c.isDigit →
      c ≠ '+' → c ≠ '-' → c ≠ '*' → c ≠ '/' → c ≠ '(' → c ≠ ')' →
      l.get_next_token = .error (.lexical c)) ∧
    (∀ (l : Lexer) (e : Err), l.get_next_token = .error e →
      ∃ c, e = .lexical c ∧ ¬ c.isWhitespace ∧ ¬ c.isDigit ∧
        c ≠ '+' ∧ c ≠ '-' ∧ c ≠ '*' ∧ c ≠ '/' ∧ c ≠ '(' ∧ c ≠ ')') ∧
    evaluate "2+@" = .error (.lexical '@') :=
  ⟨gnt_bad_char, gnt_error_inv, eval_lexical_failure⟩

/-- Witness for C4's quantified part at the character `'@'`. -/
theorem claim_C4_witness :
    Lexer.get_next_token (lexAt ['@'] 0) = .error (.lexical '@') :=
  claim_C4.1 (lexAt ['@'] 0) '@' rfl (by decide) (by decide) (by decide)
    (by decide) (by decide) (by decide) (by decide) (by decide)

/-- C5: once the position has reached the end of the text (in an in-sync
state), `get_next_token` returns the EOF token (which carries no payload)
and leaves the lexer unchanged — so it never raises, never advances past
the end, and every repeated pull yields EOF again. -/
theorem claim_C5 (l : Lexer) (hwf : LexWF l) (hend : l.text.length ≤ l.pos) :
    l.get_next_token = .ok (.eof, l) := by
  apply gnt_eof_general
  rw [hwf.1, List.getElem?_eq_none hend]

/-- Witness for C5 at a concrete end-of-text lexer state. -/
theorem claim_C5_witness :
    Lexer.get_next_token ⟨['a'], 1, none⟩ = .ok (.eof, ⟨['a'], 1, none⟩) :=
  claim_C5 ⟨['a'], 1, none⟩ ⟨rfl, by decide⟩ (by decide)

/-- C6: `parse` requires the token left after `expr` to be EOF and
otherwise fails with `ParsingError`; hence trailing tokens and unbalanced
parentheses are rejected: `evaluate "(2+3"` and `evaluate "2 3"` both fail
with `ParsingError`. -/
theorem claim_C6 :
    (∀ (p : Parser) (node : Option AST) (p1 : Parser),
      (Parser.expr p).val = .ok (node, p1) → p1.current_token.type ≠ .eof →
      Parser.parse p = .error .parsing) ∧
    evaluate "(2+3" = .error .parsing ∧
    evaluate "2 3" = .error .parsing :=
  ⟨parse_trailing, eval_unbalanced_paren, two_space_three_pipeline.2⟩

/-- Witness for C6's quantified part on the parser state reached by
`"2 3"`. -/
theorem claim_C6_witness :
    Parser.parse ⟨lexAt "2 3".data 1, .int 2⟩ = .error .parsing :=
  claim_C6.1 ⟨lexAt "2 3".data 1, .int 2⟩ (some (.num 2))
    ⟨lexAt "2 3".data 3, .int 3⟩ two_space_three_pipeline.1 (by decide)

/-- C7 counterexample: the claim says every input whose factor-position
token is neither INTEGER nor LPAREN (e.g. `"+2"`) fails with
`ParsingError`.  In fact `"+2"` parses successfully — `factor` falls
through returning Python's `None`, which becomes the left child of the
`+` node — and evaluation then fails with the internal generic-visit
error, not `ParsingError`. -/
theorem claim_C7_cex :
    evaluate "+2" = .error .internal ∧ evaluate "+2" ≠ .error .parsing := by
  refine ⟨plus_two_pipeline.2.2, ?_⟩
  rw [plus_two_pipeline.2.2]
  intro h
  injection h with h
  cases h

/-- C7 amended: an input whose factor-position token is neither INTEGER nor
LPAREN makes `factor` fall through with no node, but the resulting failure
kind depends on where the gap surfaces: `"+2"` parses into a tree with a
missing operand and fails during interpretation with the internal
generic-visit error, while `"2+)"` leaves the stray `)` unconsumed and
`parse`'s EOF check rejects it with `ParsingError`. -/
theorem claim_C7 :
    evaluate "+2" = .error .internal ∧ evaluate "2+)" = .error .parsing :=
  ⟨plus_two_pipeline.2.2, eval_two_plus_rparen⟩

/-- C8 counterexample: the claim says the left operand of a division node
is evaluated before the right operand is checked for zero.
`visitLeftFirst` is the interpreter with exactly that order (modelled from
the spec's words); on the node produced by `"()/0"` — left child `None`,
right child `0` — the real interpreter returns `DivisionByZeroError`
(right operand evaluated and checked first), while the claimed order would
have surfaced the internal error from evaluating the `None` left operand
first.  The two error kinds differ, so the claimed order is refuted at
this concrete, reachable input. -/
theorem claim_C8_cex :
    Interpreter.visit (some (.binOp none .div (some (.num 0)))) =
      .error .divisionByZero ∧
    visitLeftFirst (some (.binOp none .div (some (.num 0)))) =
      .error .internal ∧
    evaluate "()/0" = .error .divisionByZero ∧
    Err.divisionByZero ≠ Err.internal :=
  ⟨visitLeftFirst_order_witness.1, visitLeftFirst_order_witness.2,
   unit_div_zero_pipeline.2, by decide⟩

/-- C8 amended: when the interpreter evaluates a division `BinOp` node, the
right operand is evaluated and zero-checked before the left operand is
touched: if the right operand evaluates to zero the node fails with
`DivisionByZeroError` for every left child (the left operand is never
evaluated), and an error from the right operand propagates for every left
child. -/
theorem claim_C8 :
    (∀ l r : Option AST, Interpreter.visit r = .ok 0 →
      Interpreter.visit (some (.binOp l .div r)) = .error .divisionByZero) ∧
    (∀ (l r : Option AST) (e : Err), Interpreter.visit r = .error e →
      Interpreter.visit (some (.binOp l .div r)) = .error e) :=
  ⟨visit_div_zero, visit_div_err⟩

/-- Witness for C8 at concrete division nodes with a `None` left child. -/
theorem claim_C8_witness :
    Interpreter.visit (some (.binOp none .div (some (.num 0)))) =
      .error .divisionByZero ∧
    Interpreter.visit (some (.binOp none .div none)) = .error .internal := by
  constructor
  · exact claim_C8.1 none (some (.num 0))
      (by simp only [Interpreter.visit, Interpreter.visit_Num, Nat.cast_zero])
  · exact claim_C8.2 none none .internal
      (by simp only [Interpreter.visit, Interpreter.generic_visit])

/-- C9: the cursor invariant: a freshly initialised lexer is in-sync with
position `0 ≤ length`, and every successful `get_next_token` call from an
in-sync state yields an in-sync state (position within `[0, length]`,
cached character equal to the character at the position or `none` at the
end) with a monotonically non-decreasing position — the lexer never
rewinds. -/
theorem claim_C9 :
    (∀ cs : List Char, LexWF (Lexer.init cs)) ∧
    (∀ (l : Lexer) (t : Tok) (l' : Lexer), LexWF l →
      l.get_next_token = .ok (t, l') → LexWF l' ∧ l.pos ≤ l'.pos) := by
  constructor
  · intro cs
    constructor
    · unfold Lexer.init
      cases cs <;> simp
    · exact Nat.zero_le _
  · intro l t l' hwf h
    have heq := lexWF_eq_lexAt l hwf
    rw [heq] at h
    obtain ⟨p2, h1, h2, h3⟩ := gnt_pos l.text l.pos t l' hwf.2 h
    subst h1
    exact ⟨⟨rfl, h3⟩, h2⟩

/-- Witness for C9's preservation part on a concrete token pull. -/
theorem claim_C9_witness :
    LexWF (lexAt ['7'] 1) ∧ (lexAt ['7'] 0).pos ≤ (lexAt ['7'] 1).pos := by
  have ht : Lexer.get_next_token (lexAt ['7'] 0) = .ok (.int 7, lexAt ['7'] 1) := by
    have h := gnt_digit ['7'] 0 '7' rfl (by decide)
    rw [digitRun_eq] at h
    exact h
  exact claim_C9.2 (lexAt ['7'] 0) (.int 7) (lexAt ['7'] 1) ⟨rfl, by decide⟩ ht

/-- C10: on the empty (or whitespace-only) input the lexer immediately
yields EOF, `factor` produces no node (returning Python's `None` instead of
raising), `parse` returns that no-value result without `ParsingError`, and
interpretation then fails with the internal generic-visit fallback — the
defensive "unreachable" dispatch branch is reachable through `evaluate`,
and the failure is none of the three specified error kinds. -/
theorem claim_C10 :
    Parser.init (Lexer.init "".data) = .ok ⟨lexAt [] 0, .eof⟩ ∧
    Parser.parse ⟨lexAt [] 0, .eof⟩ = .ok none ∧
    Interpreter.visit none = .error .internal ∧
    evaluate "" = .error .internal ∧
    evaluate "   " = .error .internal ∧
    (∀ c, Err.internal ≠ .lexical c) ∧
    Err.internal ≠ .parsing ∧
    Err.internal ≠ .divisionByZero := by
  refine ⟨empty_pipeline.1, empty_pipeline.2.1, ?_, empty_pipeline.2.2,
    eval_spaces, ?_, by decide, by decide⟩
  · simp only [Interpreter.visit, Interpreter.generic_visit]
  · intro c h
    cases h

/-- Witness for C10's quantified part at the character `'@'`. -/
theorem claim_C10_witness : Err.internal ≠ .lexical '@' :=
  claim_C10.2.2.2.2.2.1 '@'
